import Mathlib

/-!
Verification model of the per-endpoint policy map state engine
(`pkg/policy` mapState, precedence engine, change set / revert log, and the
endpoint policy-map reconciler).

The Go source keeps policy entries in a hash map `Key → mapStateEntry`
together with an LPM trie indexing the identity-less part of each key.  Here
both containers are modelled as association lists; the trie's ancestor /
descendant iterators are reconstructed from the identity-less prefix
relation on keys.  The `Key` value type and the `bitlpm` trie themselves are
not part of the sources under verification, so they are modelled from the
spec (section 3 and section 4.1); everything else is translated directly
from `mapstate.go` and `endpoint/policy.go`.
-/

namespace PolicyModel

/-- Modelled from the spec: policy map `Key` (spec section 3).  The real type
lives in `pkg/policy/types` which is not among the sources.  `identity = 0`
is the wildcard identity, `nexthdr = 0` the wildcard protocol, and
`destPort` carries only its top `portPrefixLen` bits of information
(port ranges as LPM prefixes). -/
structure Key where
  trafficDirection : Nat
  identity : Nat
  nexthdr : Nat
  destPort : Nat
  portPrefixLen : Nat
deriving DecidableEq, Repr

/-- Well-formed keys per spec section 3: the port prefix length is at most 16
bits, bits of `destPort` beyond the prefix are zero, and a wildcard port
(`destPort = 0`) carries no prefix bits (invariant I4). -/
def Key.WF (k : Key) : Prop :=
  k.portPrefixLen ≤ 16 ∧
  k.destPort % 2 ^ (16 - k.portPrefixLen) = 0 ∧
  (k.destPort = 0 → k.portPrefixLen = 0)

instance (k : Key) : Decidable k.WF := by
  unfold Key.WF; infer_instance

/-- `Key.WithIdentity` from the source: same key with the identity replaced. -/
def Key.withIdentity (k : Key) (id : Nat) : Key := { k with identity := id }

/-- `Key.PortProtoIsEqual`: equality on everything except the identity. -/
def Key.portProtoIsEqual (k o : Key) : Prop :=
  k.trafficDirection = o.trafficDirection ∧ k.nexthdr = o.nexthdr ∧
  k.destPort = o.destPort ∧ k.portPrefixLen = o.portPrefixLen

instance (k o : Key) : Decidable (k.portProtoIsEqual o) := by
  unfold Key.portProtoIsEqual; infer_instance

/-- Modelled from the spec: the LPM "broader or equal" relation on the
identity-less part of two keys.  `b` is broader than or equal to `a` when
they agree on the fixed-width direction and protocol bits and the
`portPrefixLen` top bits of `b.destPort` are a prefix of `a.destPort`
(spec section 3: the prefix length for LPM ordering is the concatenation of
fixed-width (direction, protocol) bits plus `port_prefix_len`). -/
def Key.broaderOrEqualPP (b a : Key) : Prop :=
  b.trafficDirection = a.trafficDirection ∧ b.nexthdr = a.nexthdr ∧
  b.portPrefixLen ≤ a.portPrefixLen ∧
  b.destPort / 2 ^ (16 - b.portPrefixLen) = a.destPort / 2 ^ (16 - b.portPrefixLen)

instance (b a : Key) : Decidable (b.broaderOrEqualPP a) := by
  unfold Key.broaderOrEqualPP; infer_instance

theorem Key.broaderOrEqualPP_refl (k : Key) : k.broaderOrEqualPP k :=
  ⟨rfl, rfl, le_refl _, rfl⟩

theorem Key.broaderOrEqualPP_trans {b m a : Key} (hm : m.portPrefixLen ≤ 16)
    (h1 : b.broaderOrEqualPP m) (h2 : m.broaderOrEqualPP a) :
    b.broaderOrEqualPP a := by
  obtain ⟨hd1, hp1, hl1, hb1⟩ := h1
  obtain ⟨hd2, hp2, hl2, hb2⟩ := h2
  refine ⟨hd1.trans hd2, hp1.trans hp2, hl1.trans hl2, ?_⟩
  have hsplit : 2 ^ (16 - b.portPrefixLen) =
      2 ^ (16 - m.portPrefixLen) * 2 ^ (m.portPrefixLen - b.portPrefixLen) := by
    rw [← pow_add]
    congr 1
    omega
  calc b.destPort / 2 ^ (16 - b.portPrefixLen)
      = m.destPort / 2 ^ (16 - b.portPrefixLen) := hb1
    _ = m.destPort / 2 ^ (16 - m.portPrefixLen) / 2 ^ (m.portPrefixLen - b.portPrefixLen) := by
        rw [Nat.div_div_eq_div_mul, ← hsplit]
    _ = a.destPort / 2 ^ (16 - m.portPrefixLen) / 2 ^ (m.portPrefixLen - b.portPrefixLen) := by
        rw [hb2]
    _ = a.destPort / 2 ^ (16 - b.portPrefixLen) := by
        rw [Nat.div_div_eq_div_mul, ← hsplit]

/-- The identity-less LPM prefix of a key: the node key under which the
`bitlpm` trie stores the key's identity set.  Identity is not part of the
trie key, and bits of `destPort` beyond `portPrefixLen` are not significant
in the trie.  For well-formed (masked) keys this is just `k` with the
identity cleared. -/
def Key.trieKey (k : Key) : Key :=
  { k with identity := 0,
           destPort := k.destPort / 2 ^ (16 - k.portPrefixLen) * 2 ^ (16 - k.portPrefixLen) }

theorem Key.trieKey_eq_withIdentity_zero {k : Key} (h : k.WF) :
    k.trieKey = k.withIdentity 0 := by
  obtain ⟨-, hmask, -⟩ := h
  unfold Key.trieKey Key.withIdentity
  have : k.destPort / 2 ^ (16 - k.portPrefixLen) * 2 ^ (16 - k.portPrefixLen) = k.destPort :=
    Nat.div_mul_cancel (Nat.dvd_of_mod_eq_zero hmask)
  simp [this]

@[simp] theorem Key.withIdentity_identity (k : Key) (id : Nat) :
    (k.withIdentity id).identity = id := rfl

@[simp] theorem Key.withIdentity_trafficDirection (k : Key) (id : Nat) :
    (k.withIdentity id).trafficDirection = k.trafficDirection := rfl

@[simp] theorem Key.withIdentity_nexthdr (k : Key) (id : Nat) :
    (k.withIdentity id).nexthdr = k.nexthdr := rfl

@[simp] theorem Key.withIdentity_destPort (k : Key) (id : Nat) :
    (k.withIdentity id).destPort = k.destPort := rfl

@[simp] theorem Key.withIdentity_portPrefixLen (k : Key) (id : Nat) :
    (k.withIdentity id).portPrefixLen = k.portPrefixLen := rfl

theorem Key.withIdentity_self {k : Key} : k.withIdentity k.identity = k := rfl

theorem Key.broaderOrEqualPP_withIdentity_left (k a : Key) (id : Nat) :
    (k.withIdentity id).broaderOrEqualPP a ↔ k.broaderOrEqualPP a := Iff.rfl

theorem Key.broaderOrEqualPP_withIdentity_right (k a : Key) (id : Nat) :
    k.broaderOrEqualPP (a.withIdentity id) ↔ k.broaderOrEqualPP a := Iff.rfl

theorem Key.wf_withIdentity {k : Key} (h : k.WF) (id : Nat) : (k.withIdentity id).WF := h

theorem Key.portProtoIsEqual_of_eq {k o : Key} (h : k = o) : k.portProtoIsEqual o := by
  subst h; exact ⟨rfl, rfl, rfl, rfl⟩

theorem Key.eq_of_portProtoIsEqual {k o : Key} (hpp : k.portProtoIsEqual o)
    (hid : k.identity = o.identity) : k = o := by
  obtain ⟨h1, h2, h3, h4⟩ := hpp
  cases k; cases o
  simp_all

/-! ### Entries (`MapStateEntry`, `mapStateEntry`) -/

/-- `HasAuthType`: whether the auth type of an entry was set explicitly by a
rule or defaulted (and hence open to propagation from covering entries). -/
inductive HasAuthType where
  | DefaultAuthType
  | ExplicitAuthType
deriving DecidableEq, Repr

/-- Exported entry (`MapStateEntry` in `mapstate.go`). `AuthType` is the
numeric auth-type enum; owners, rule labels and priority are internal. -/
structure MapStateEntry where
  Listener : String
  ProxyPort : Nat
  IsDeny : Bool
  HasAuthType : HasAuthType
  AuthType : Nat
deriving DecidableEq, Repr

/-- `MapStateEntry.IsRedirectEntry`: true when the entry redirects to a
proxy port. -/
def MapStateEntry.IsRedirectEntry (e : MapStateEntry) : Bool := e.ProxyPort ≠ 0

/-- `MapStateEntry.Equal`: datapath equality — `IsDeny`, `ProxyPort` and
`AuthType` are the same for both entries (`Listener` and `HasAuthType` are
not compared). -/
def MapStateEntry.Equal (e o : MapStateEntry) : Prop :=
  e.IsDeny = o.IsDeny ∧ e.ProxyPort = o.ProxyPort ∧ e.AuthType = o.AuthType

instance (e o : MapStateEntry) : Decidable (e.Equal o) := by
  unfold MapStateEntry.Equal; infer_instance

/-- Rule labels (`labels.LabelArrayList`) are abstracted to numeric rule
identifiers kept in sorted order. -/
abbrev RuleLabels := List Nat

/-- Modelled from the spec: `LabelArrayList.MergeSorted` (package `labels`,
not among the sources) — merge of two sorted rule-label lists keeping
sorted order without duplicating common elements. -/
def mergeSortedRules : RuleLabels → RuleLabels → RuleLabels
  | [], ys => ys
  | x :: xs, [] => x :: xs
  | x :: xs, y :: ys =>
    if x < y then x :: mergeSortedRules xs (y :: ys)
    else if y < x then y :: mergeSortedRules (x :: xs) ys
    else x :: mergeSortedRules xs ys
termination_by xs ys => xs.length + ys.length

/-- Owners are abstract owner handles (`CachedSelector`); a `none` owner is
the nil selector that makes an entry sticky. -/
abbrev Owner := Option Nat

/-- Internal entry (`mapStateEntry`): the exported fields plus listener
priority, originating rules and the owner set. -/
structure mapStateEntry extends MapStateEntry where
  priority : Nat
  derivedFromRules : RuleLabels
  owners : Finset Owner
deriving DecidableEq

/-- `mapStateEntry.deepEqual`: all fields equal (the Go source compares
every field including listener, priority, rules and owners). -/
def mapStateEntry.deepEqual (e o : mapStateEntry) : Prop := e = o

instance (e o : mapStateEntry) : Decidable (e.deepEqual o) := by
  unfold mapStateEntry.deepEqual; infer_instance

/-- `newMapStateEntry`: builds an internal entry; without a redirect the
listener and priority are cleared, and a redirect with no explicit priority
defaults its priority to the proxy port for tie-breaking. -/
def newMapStateEntry (cs : Owner) (derivedFrom : RuleLabels) (proxyPort : Nat)
    (listener : String) (priority : Nat) (deny : Bool) (hasAuth : HasAuthType)
    (authType : Nat) : mapStateEntry :=
  let listener' := if proxyPort = 0 then "" else listener
  let priority' := if proxyPort = 0 then 0 else if priority = 0 then proxyPort else priority
  { Listener := listener', ProxyPort := proxyPort, IsDeny := deny,
    HasAuthType := hasAuth, AuthType := authType,
    priority := priority', derivedFromRules := derivedFrom, owners := {cs} }

/-- `mapStateEntry.merge` from `mapstate.go`: adds owners and rules from
`entry` to `e`; for allow entries the proxy redirect is selected by priority
(proxy-port tie-break) and explicit auth wins over defaulted auth.  If the
two entries have different deny polarity the source logs an error and leaves
`e` unchanged. -/
def mapStateEntry.merge (e entry : mapStateEntry) : mapStateEntry :=
  if e.IsDeny ≠ entry.IsDeny then e
  else
    let e1 :=
      if e.IsDeny then e
      else
        let e' :=
          if entry.IsRedirectEntry ∧
              (¬ e.IsRedirectEntry ∨ entry.priority < e.priority ∨
                (entry.priority = e.priority ∧ entry.ProxyPort < e.ProxyPort)) then
            { e with ProxyPort := entry.ProxyPort, Listener := entry.Listener,
                     priority := entry.priority }
          else e
        if entry.HasAuthType = .ExplicitAuthType then
          if e'.HasAuthType = .ExplicitAuthType then
            if entry.AuthType > e'.AuthType then { e' with AuthType := entry.AuthType } else e'
          else
            { e' with HasAuthType := .ExplicitAuthType, AuthType := entry.AuthType }
        else if e'.HasAuthType = .DefaultAuthType then
          { e' with AuthType := entry.AuthType }
        else e'
    { e1 with owners := e1.owners ∪ entry.owners,
              derivedFromRules :=
                if entry.derivedFromRules ≠ [] then
                  mergeSortedRules e1.derivedFromRules entry.derivedFromRules
                else e1.derivedFromRules }

/-! ### Association lists

Both the entries hash map and the trie are modelled as association lists
with unique keys.  `alookup`, `aset` and `aerase` mirror map read, write and
delete. -/

/-- First-match lookup in an association list. -/
def alookup {α : Type} : List (Key × α) → Key → Option α
  | [], _ => none
  | (k, v) :: t, q => if k = q then some v else alookup t q

/-- Write: replace the first binding of `q`, or append a new binding. -/
def aset {α : Type} : List (Key × α) → Key → α → List (Key × α)
  | [], q, x => [(q, x)]
  | (k, v) :: t, q, x => if k = q then (q, x) :: t else (k, v) :: aset t q x

/-- Delete the first binding of `q`. -/
def aerase {α : Type} : List (Key × α) → Key → List (Key × α)
  | [], _ => []
  | (k, v) :: t, q => if k = q then t else (k, v) :: aerase t q

/-- The keys of an association list are pairwise distinct. -/
def NodupKeys {α : Type} (l : List (Key × α)) : Prop := (l.map Prod.fst).Nodup

section AListLemmas

variable {α : Type}

@[simp] theorem alookup_nil (q : Key) : alookup ([] : List (Key × α)) q = none := rfl

theorem alookup_cons (k : Key) (v : α) (t : List (Key × α)) (q : Key) :
    alookup ((k, v) :: t) q = if k = q then some v else alookup t q := rfl

@[simp] theorem alookup_aset_self (l : List (Key × α)) (q : Key) (x : α) :
    alookup (aset l q x) q = some x := by
  induction l with
  | nil => simp [aset, alookup]
  | cons h t ih =>
    obtain ⟨k, v⟩ := h
    by_cases hk : k = q
    · simp [aset, hk, alookup]
    · simp [aset, hk, alookup, ih]

theorem alookup_aset_ne (l : List (Key × α)) {q q' : Key} (h : q ≠ q') (x : α) :
    alookup (aset l q x) q' = alookup l q' := by
  induction l with
  | nil => simp [aset, alookup, h]
  | cons hd t ih =>
    obtain ⟨k, v⟩ := hd
    by_cases hk : k = q
    · subst hk; simp [aset, alookup, h]
    · simp only [aset, if_neg hk, alookup_cons]
      rw [ih]

theorem alookup_aerase_ne (l : List (Key × α)) {q q' : Key} (h : q ≠ q') :
    alookup (aerase l q) q' = alookup l q' := by
  induction l with
  | nil => simp [aerase]
  | cons hd t ih =>
    obtain ⟨k, v⟩ := hd
    by_cases hk : k = q
    · subst hk; simp [aerase, alookup_cons, h]
    · simp only [aerase, if_neg hk, alookup_cons]
      rw [ih]

theorem mem_keys_of_alookup_isSome {l : List (Key × α)} {q : Key}
    (h : (alookup l q).isSome) : q ∈ l.map Prod.fst := by
  induction l with
  | nil => simp [alookup] at h
  | cons hd t ih =>
    obtain ⟨k, v⟩ := hd
    by_cases hk : k = q
    · subst hk; simp
    · simp only [alookup_cons, if_neg hk] at h
      simpa using Or.inr (ih h)

theorem alookup_eq_none_of_not_mem_keys {l : List (Key × α)} {q : Key}
    (h : q ∉ l.map Prod.fst) : alookup l q = none := by
  induction l with
  | nil => rfl
  | cons hd t ih =>
    obtain ⟨k, v⟩ := hd
    simp only [List.map_cons, List.mem_cons] at h
    push_neg at h
    simp only [alookup_cons, if_neg (Ne.symm h.1), ih h.2]

theorem alookup_aerase_self {l : List (Key × α)} (hnd : NodupKeys l) (q : Key) :
    alookup (aerase l q) q = none := by
  induction l with
  | nil => rfl
  | cons hd t ih =>
    obtain ⟨k, v⟩ := hd
    simp only [NodupKeys, List.map_cons, List.nodup_cons] at hnd
    by_cases hk : k = q
    · subst hk
      simp only [aerase, if_pos rfl]
      exact alookup_eq_none_of_not_mem_keys hnd.1
    · simp only [aerase, if_neg hk, alookup_cons, if_neg hk]
      exact ih hnd.2

theorem mem_of_alookup_eq_some {l : List (Key × α)} {q : Key} {v : α}
    (h : alookup l q = some v) : (q, v) ∈ l := by
  induction l with
  | nil => simp [alookup] at h
  | cons hd t ih =>
    obtain ⟨k, w⟩ := hd
    rw [alookup_cons] at h
    by_cases hk : k = q
    · subst hk
      rw [if_pos rfl] at h
      cases h
      exact List.mem_cons_self _ _
    · rw [if_neg hk] at h
      exact List.mem_cons_of_mem _ (ih h)

theorem alookup_eq_some_of_mem {l : List (Key × α)} (hnd : NodupKeys l) {q : Key} {v : α}
    (h : (q, v) ∈ l) : alookup l q = some v := by
  induction l with
  | nil => simp at h
  | cons hd t ih =>
    obtain ⟨k, w⟩ := hd
    simp only [NodupKeys, List.map_cons, List.nodup_cons] at hnd
    rcases List.mem_cons.mp h with heq | hmem
    · obtain ⟨hk, hv⟩ := Prod.mk.injEq .. ▸ heq
      cases heq
      simp [alookup_cons]
    · have hk : k ≠ q := by
        rintro rfl
        exact hnd.1 (List.mem_map.mpr ⟨(k, v), hmem, rfl⟩)
      simp only [alookup_cons, if_neg hk]
      exact ih hnd.2 hmem

theorem keys_aset_of_mem {l : List (Key × α)} {q : Key}
    (h : (alookup l q).isSome) (x : α) :
    (aset l q x).map Prod.fst = l.map Prod.fst := by
  induction l with
  | nil => simp [alookup] at h
  | cons hd t ih =>
    obtain ⟨k, v⟩ := hd
    by_cases hk : k = q
    · subst hk; simp [aset]
    · simp only [alookup_cons, if_neg hk] at h
      simp [aset, if_neg hk, ih h]

theorem aset_of_not_mem {l : List (Key × α)} {q : Key}
    (h : q ∉ l.map Prod.fst) (x : α) : aset l q x = l ++ [(q, x)] := by
  induction l with
  | nil => rfl
  | cons hd t ih =>
    obtain ⟨k, v⟩ := hd
    simp only [List.map_cons, List.mem_cons] at h
    push_neg at h
    simp [aset, if_neg (Ne.symm h.1), ih h.2]

theorem nodupKeys_aset {l : List (Key × α)} (hnd : NodupKeys l) (q : Key) (x : α) :
    NodupKeys (aset l q x) := by
  by_cases h : (alookup l q).isSome
  · unfold NodupKeys
    rw [keys_aset_of_mem h]
    exact hnd
  · have hq : q ∉ l.map Prod.fst := by
      intro hmem
      rcases List.mem_map.mp hmem with ⟨⟨k, v⟩, hkv, hfst⟩
      cases hfst
      have := alookup_eq_some_of_mem hnd hkv
      simp [this] at h
    rw [aset_of_not_mem hq]
    unfold NodupKeys
    rw [List.map_append, List.nodup_append]
    refine ⟨hnd, by simp, ?_⟩
    intro a ha hb
    simp only [List.map_cons, List.map_nil, List.mem_singleton] at hb
    subst hb
    exact hq ha

theorem keys_aerase_subset (l : List (Key × α)) (q : Key) :
    (aerase l q).map Prod.fst ⊆ l.map Prod.fst := by
  induction l with
  | nil => simp [aerase]
  | cons hd t ih =>
    obtain ⟨k, v⟩ := hd
    by_cases hk : k = q
    · subst hk
      simp only [aerase, if_pos rfl, List.map_cons]
      exact fun x hx => List.mem_cons_of_mem _ hx
    · simp only [aerase, if_neg hk, List.map_cons]
      intro x hx
      rcases List.mem_cons.mp hx with h | h
      · exact h ▸ List.mem_cons_self _ _
      · exact List.mem_cons_of_mem _ (ih h)

theorem nodupKeys_aerase {l : List (Key × α)} (hnd : NodupKeys l) (q : Key) :
    NodupKeys (aerase l q) := by
  induction l with
  | nil => exact hnd
  | cons hd t ih =>
    obtain ⟨k, v⟩ := hd
    simp only [NodupKeys, List.map_cons, List.nodup_cons] at hnd
    by_cases hk : k = q
    · subst hk; simpa [aerase] using hnd.2
    · simp only [aerase, if_neg hk, NodupKeys, List.map_cons, List.nodup_cons]
      exact ⟨fun hmem => hnd.1 (keys_aerase_subset t q hmem), ih hnd.2⟩

end AListLemmas

/-! ### The `mapState` container -/

/-- Identity sets stored at the trie leaves. -/
abbrev IDSet := Finset Nat

/-- `mapState`: the authoritative `Key → mapStateEntry` map together with
the LPM trie indexing identity-less key prefixes to identity sets.  Both
are association lists here; the trie list is keyed by `Key.trieKey`. -/
structure mapState where
  entries : List (Key × mapStateEntry)
  trie : List (Key × IDSet)
deriving DecidableEq

/-- `newMapState`: the empty container. -/
def newMapState : mapState := { entries := [], trie := [] }

/-- `mapState.Lookup`. -/
def mapState.Lookup (ms : mapState) (k : Key) : Option mapStateEntry :=
  alookup ms.entries k

/-- `mapState.get`: the source additionally logs an error for a wildcard
port with a non-zero prefix length, then performs the lookup regardless. -/
def mapState.get (ms : mapState) (k : Key) : Option mapStateEntry := ms.Lookup k

/-- `mapState.upsert`: write the entry; if the key is new, add its identity
to the trie leaf of the identity-less prefix, creating the leaf on demand. -/
def mapState.upsert (ms : mapState) (k : Key) (e : mapStateEntry) : mapState :=
  let isNew := (alookup ms.entries k).isNone
  let entries := aset ms.entries k e
  if isNew then
    let tk := k.trieKey
    let idSet := (alookup ms.trie tk).getD ∅
    { entries := entries, trie := aset ms.trie tk (insert k.identity idSet) }
  else
    { entries := entries, trie := ms.trie }

/-- `mapState.delete`: remove the key; remove its identity from the trie
leaf and remove the leaf when its identity set becomes empty. -/
def mapState.delete (ms : mapState) (k : Key) : mapState :=
  if (alookup ms.entries k).isSome then
    let entries := aerase ms.entries k
    let tk := k.trieKey
    match alookup ms.trie tk with
    | none => { entries := entries, trie := ms.trie }
    | some s =>
      let s' := s.erase k.identity
      if s' = ∅ then { entries := entries, trie := aerase ms.trie tk }
      else { entries := entries, trie := aset ms.trie tk s' }
  else ms

/-- `mapState.insert`: the source logs an error for a wildcard port with a
non-zero prefix length and then upserts regardless. -/
def mapState.insert (ms : mapState) (k : Key) (v : mapStateEntry) : mapState :=
  ms.upsert k v

/-- `mapState.updateExisting`: persist a changed entry value without
touching the indices. -/
def mapState.updateExisting (ms : mapState) (k : Key) (v : mapStateEntry) : mapState :=
  { ms with entries := aset ms.entries k v }

/-! ### Trie iterators

The four iterators of section 4.1, reconstructed from the prefix relation.
The `bitlpm` iterators visit trie nodes in prefix-length order; leaves are
enumerated here by increasing (or decreasing) `portPrefixLen`, keeping the
trie list order within one length. -/

/-- Trie leaves satisfying `pred`, shortest prefix first. -/
def mapState.leavesAsc (ms : mapState) (pred : Key → Prop) [DecidablePred pred] :
    List (Key × IDSet) :=
  (List.range 17).flatMap fun l =>
    ms.trie.filter fun pv => pv.1.portPrefixLen = l ∧ pred pv.1

/-- Trie leaves satisfying `pred`, longest prefix first. -/
def mapState.leavesDesc (ms : mapState) (pred : Key → Prop) [DecidablePred pred] :
    List (Key × IDSet) :=
  (List.range 17).reverse.flatMap fun l =>
    ms.trie.filter fun pv => pv.1.portPrefixLen = l ∧ pred pv.1

/-- `forKey`: look up the entry for a key yielded from the trie; when the
entry is missing the source logs an error and the iteration continues. -/
def mapState.yieldKey (ms : mapState) (k : Key) : List (Key × mapStateEntry) :=
  match alookup ms.entries k with
  | some e => [(k, e)]
  | none => []

/-- `mapState.BroaderOrEqualKeys`: for each ancestor leaf, the wildcard
identity entry first (if present), then the entry with the query's own
(non-wildcard) identity. -/
def mapState.BroaderOrEqualKeys (ms : mapState) (key : Key) : List (Key × mapStateEntry) :=
  (ms.leavesAsc fun p => p.broaderOrEqualPP key).flatMap fun ps =>
    (if 0 ∈ ps.2 then ms.yieldKey (ps.1.withIdentity 0) else []) ++
    (if key.identity ≠ 0 ∧ key.identity ∈ ps.2 then
      ms.yieldKey (ps.1.withIdentity key.identity) else [])

/-- `mapState.NarrowerOrEqualKeys`: for each descendant leaf, all identities
when the query has the wildcard identity, otherwise only the query's
identity. -/
def mapState.NarrowerOrEqualKeys (ms : mapState) (key : Key) : List (Key × mapStateEntry) :=
  (ms.leavesAsc fun p => key.broaderOrEqualPP p).flatMap fun ps =>
    if key.identity = 0 then
      (ps.2.sort (· ≤ ·)).flatMap fun id => ms.yieldKey (ps.1.withIdentity id)
    else if key.identity ∈ ps.2 then ms.yieldKey (ps.1.withIdentity key.identity)
    else []

/-- `mapState.CoveringKeysWithSameID`: strictly broader leaves in
longest-prefix-first order, the query's identity only. -/
def mapState.CoveringKeysWithSameID (ms : mapState) (key : Key) : List (Key × mapStateEntry) :=
  (ms.leavesDesc fun p => p.broaderOrEqualPP key ∧ ¬ p.portProtoIsEqual key).flatMap fun ps =>
    if key.identity ∈ ps.2 then ms.yieldKey (ps.1.withIdentity key.identity) else []

/-- `mapState.SubsetKeysWithSameID`: strictly narrower leaves in
shortest-prefix-first order, the query's identity only. -/
def mapState.SubsetKeysWithSameID (ms : mapState) (key : Key) : List (Key × mapStateEntry) :=
  (ms.leavesAsc fun p => key.broaderOrEqualPP p ∧ ¬ p.portProtoIsEqual key).flatMap fun ps =>
    if key.identity ∈ ps.2 then ms.yieldKey (ps.1.withIdentity key.identity) else []

/-! ### ChangeState -/

/-- `ChangeState`: incremental adds and deletes of a batch plus the prior
values of mutated or removed keys.  Each component is `none` when the
corresponding Go map is nil (recording disabled). -/
structure ChangeState where
  Adds : Option (List Key)
  Deletes : Option (List Key)
  old : Option (List (Key × mapStateEntry))
deriving DecidableEq

/-- A `ChangeState` with all three maps allocated, as built by
`consumeMapChanges`. -/
def ChangeState.empty : ChangeState := { Adds := some [], Deletes := some [], old := some [] }

/-- Insert into a set-as-list (Go `map[Key]struct{}` write). -/
def kinsert (l : List Key) (k : Key) : List Key := if k ∈ l then l else k :: l

/-- Membership in an optional key set (a nil Go map contains nothing). -/
def ChangeState.inAdds (changes : ChangeState) (k : Key) : Prop :=
  match changes.Adds with
  | some a => k ∈ a
  | none => False

instance (changes : ChangeState) (k : Key) : Decidable (changes.inAdds k) := by
  unfold ChangeState.inAdds
  cases changes.Adds <;> infer_instance

/-- `ChangeState.insertOldIfNotExists`: record the old value of `key` unless
one is already recorded or the key was first added during this round of
changes.  Returns the updated state and whether an old entry was added. -/
def ChangeState.insertOldIfNotExists (changes : ChangeState) (key : Key)
    (entry : mapStateEntry) : ChangeState × Bool :=
  match changes.old with
  | none => (changes, false)
  | some o =>
    if (alookup o key).isSome then (changes, false)
    else if changes.inAdds key then (changes, false)
    else ({ changes with old := some ((key, entry) :: o) }, true)

/-- Record an incremental add: a key add overrides any previous delete of
the same key. -/
def ChangeState.recordAdd (changes : ChangeState) (key : Key) : ChangeState :=
  match changes.Adds with
  | none => changes
  | some a => { changes with Adds := some (kinsert a key),
                             Deletes := changes.Deletes.map (·.erase key) }

/-- Record an incremental delete, removing a potential previously added key. -/
def ChangeState.recordDelete (changes : ChangeState) (key : Key) : ChangeState :=
  match changes.Deletes with
  | none => changes
  | some d => { changes with Deletes := some (kinsert d key),
                             Adds := changes.Adds.map (·.erase key) }

/-- Drop a just-recorded old value again (owner-removal miss path). -/
def ChangeState.eraseOld (changes : ChangeState) (key : Key) : ChangeState :=
  { changes with old := changes.old.map (fun o => aerase o key) }

/-! ### Engine mutations -/

/-- `mapState.addKeyWithChanges`: merge with an existing entry of the same
deny polarity, insert a new entry (or let a deny overwrite an allow), and
record the incremental add when the entry is new or datapath-changed.
Returns the updated state, change set and whether anything was done. -/
def mapState.addKeyWithChanges (ms : mapState) (key : Key) (entry : mapStateEntry)
    (changes : ChangeState) : mapState × ChangeState × Bool :=
  match ms.get key with
  | some oldEntry =>
    if oldEntry.IsDeny = entry.IsDeny then
      if entry.deepEqual oldEntry then (ms, changes, false)
      else
        let changes1 := (changes.insertOldIfNotExists key oldEntry).1
        let datapathEqual := decide (oldEntry.toMapStateEntry.Equal entry.toMapStateEntry)
        let ms1 := ms.updateExisting key (oldEntry.merge entry)
        let changes2 := if datapathEqual then changes1 else changes1.recordAdd key
        (ms1, changes2, true)
    else if entry.IsDeny then
      (ms.insert key entry, changes.recordAdd key, true)
    else (ms, changes, false)
  | none => (ms.insert key entry, changes.recordAdd key, true)

/-- `mapState.deleteKeyWithChanges`: delete the key unconditionally when
`owner` is `none`, otherwise remove only this owner's contribution and keep
the entry while other owners still need it. -/
def mapState.deleteKeyWithChanges (ms : mapState) (key : Key) (owner : Option Nat)
    (changes : ChangeState) : mapState × ChangeState :=
  match ms.get key with
  | none => (ms, changes)
  | some entry =>
    let r := changes.insertOldIfNotExists key entry
    let changes1 := r.1
    let oldAdded := r.2
    match owner with
    | some o =>
      if (some o : Owner) ∈ entry.owners then
        let owners' := entry.owners.erase (some o)
        if owners' ≠ ∅ then
          (ms.updateExisting key { entry with owners := owners' }, changes1)
        else
          (ms.delete key, changes1.recordDelete key)
      else
        (ms, if oldAdded then changes1.eraseOld key else changes1)
    | none => (ms.delete key, changes1.recordDelete key)

/-- `mapState.revertChanges`: delete every key recorded in `adds`, then
reinsert every recorded old value. -/
def mapState.revertChanges (ms : mapState) (changes : ChangeState) : mapState :=
  let ms1 := (changes.Adds.getD []).foldl mapState.delete ms
  (changes.old.getD []).foldl (fun m kv => m.insert kv.1 kv.2) ms1

/-- `mapState.overrideAuthType`: overwrite the auth type of `k` in place
(the trie is not affected), saving the old entry in the change set. -/
def mapState.overrideAuthType (ms : mapState) (newEntry : mapStateEntry) (k : Key)
    (v : mapStateEntry) (changes : ChangeState) : mapState × ChangeState :=
  let changes1 := (changes.insertOldIfNotExists k v).1
  ({ ms with entries := aset ms.entries k { v with AuthType := newEntry.AuthType } }, changes1)

/-- `mapState.authPreferredInsert`: a defaulted entry adopts the auth type
of the most specific covering key with an explicit auth type (a covering
deny would be a programmer error: the source panics); an explicit entry
propagates its auth type to defaulted subset entries, stopping at the first
deny or explicit subset entry. -/
def mapState.authPreferredInsert (ms : mapState) (newKey : Key) (newEntry : mapStateEntry)
    (changes : ChangeState) : mapState × ChangeState :=
  if newEntry.HasAuthType = .DefaultAuthType then
    let newEntry' :=
      match (ms.CoveringKeysWithSameID newKey).find?
          (fun kv => kv.2.IsDeny || kv.2.HasAuthType = .ExplicitAuthType) with
      | some kv => if kv.2.IsDeny then newEntry else { newEntry with AuthType := kv.2.AuthType }
      | none => newEntry
    let r := ms.addKeyWithChanges newKey newEntry' changes
    (r.1, r.2.1)
  else
    let walked := (ms.SubsetKeysWithSameID newKey).takeWhile
      (fun kv => ¬ (kv.2.IsDeny = true ∨ kv.2.HasAuthType = .ExplicitAuthType))
    let s := walked.foldl (fun p kv => p.1.overrideAuthType newEntry kv.1 kv.2 p.2) (ms, changes)
    let r := s.1.addKeyWithChanges newKey newEntry s.2
    (r.1, r.2.1)

/-- `mapState.denyPreferredInsertWithChanges`: bail when the new key is
covered by a deny; a new deny deletes all covered narrower-or-equal keys;
allow entries route through the auth-preferred insert when the auth feature
is active. -/
def mapState.denyPreferredInsertWithChanges (ms : mapState) (newKey : Key)
    (newEntry : mapStateEntry) (authRules : Bool) (changes : ChangeState) :
    mapState × ChangeState :=
  if (ms.BroaderOrEqualKeys newKey).any
      (fun kv => kv.2.IsDeny ∧ ¬ (newEntry.IsDeny = true ∧ kv.1 = newKey)) then
    (ms, changes)
  else if newEntry.IsDeny then
    let doomed := (ms.NarrowerOrEqualKeys newKey).filter
      (fun kv => ¬ (kv.2.IsDeny = true ∧ kv.1 = newKey))
    let s := doomed.foldl (fun p kv => p.1.deleteKeyWithChanges kv.1 none p.2) (ms, changes)
    let r := s.1.addKeyWithChanges newKey newEntry s.2
    (r.1, r.2.1)
  else if authRules then ms.authPreferredInsert newKey newEntry changes
  else
    let r := ms.addKeyWithChanges newKey newEntry changes
    (r.1, r.2.1)

/-- `mapState.insertWithChanges` delegates to the deny-preferred insert.
The `policyFeatures` bit set is reduced to the single `authRules` flag the
engine consults. -/
def mapState.insertWithChanges (ms : mapState) (key : Key) (entry : mapStateEntry)
    (authRules : Bool) (changes : ChangeState) : mapState × ChangeState :=
  ms.denyPreferredInsertWithChanges key entry authRules changes

/-! ### Endpoint policy-map reconciler (`syncPolicyMapWith`) -/

/-- The exported map view consumed by the reconciler. -/
abbrev MapStateMap := List (Key × MapStateEntry)

/-- One external BPF policy-map operation issued by the reconciler. -/
inductive PolicyOp where
  | write (k : Key) (e : MapStateEntry)
  | remove (k : Key)
deriving DecidableEq, Repr

def PolicyOp.isWrite : PolicyOp → Bool
  | .write _ _ => true
  | .remove _ => false

/-- The body of the reconciler's add loop: write the desired entry when the
realized value is absent or datapath-different, updating the realized view
and recording the external write. -/
def policySyncStep (acc : MapStateMap × List PolicyOp) (kv : Key × MapStateEntry) :
    MapStateMap × List PolicyOp :=
  match alookup acc.1 kv.1 with
  | some oldEntry =>
    if oldEntry.Equal kv.2 then acc
    else (aset acc.1 kv.1 kv.2, acc.2 ++ [.write kv.1 kv.2])
  | none => (aset acc.1 kv.1 kv.2, acc.2 ++ [.write kv.1 kv.2])

/-- `Endpoint.syncPolicyMapWith`: write every desired key whose realized
value is absent or datapath-different (updating the realized view), then
delete every realized key absent from the desired state.  Returns the
updated realized map and the external operations in issue order.  The diff
count of the source is the length of the operation list. -/
def syncPolicyMapWith (desired realized : MapStateMap) : MapStateMap × List PolicyOp :=
  let step := desired.foldl policySyncStep (realized, [])
  let survivors := step.1.filter fun kv => (alookup desired kv.1).isSome
  let removed := step.1.filter fun kv => (alookup desired kv.1).isNone
  (survivors, step.2 ++ removed.map fun kv => .remove kv.1)

/-! ### Container and engine invariants -/

/-- Trie/map consistency (spec invariant I1): every entry key is indexed
under its identity-less prefix leaf, every leaf is an identity-less key
whose identity set points back at existing entries, and no leaf has an
empty identity set. -/
def mapState.Consistent (ms : mapState) : Prop :=
  (∀ kv ∈ ms.entries, ∃ s, alookup ms.trie kv.1.trieKey = some s ∧ kv.1.identity ∈ s) ∧
  (∀ ps ∈ ms.trie, ps.1.identity = 0 ∧ ps.2.Nonempty ∧
    ∀ id ∈ ps.2, (alookup ms.entries (ps.1.withIdentity id)).isSome)

/-- The container well-formedness carried by every engine-maintained state:
unique keys in both indices, well-formed keys, well-formed trie leaf keys,
and trie/map consistency. -/
def mapState.Invariant (ms : mapState) : Prop :=
  NodupKeys ms.entries ∧ NodupKeys ms.trie ∧
  (∀ kv ∈ ms.entries, kv.1.WF) ∧
  (∀ ps ∈ ms.trie, ps.1.WF) ∧
  ms.Consistent

/-- Deny dominance (spec invariant I2): no allow entry is covered by a
broader-or-equal deny entry with the same identity or the wildcard
identity. -/
def mapState.DenyDominant (ms : mapState) : Prop :=
  ∀ akv ∈ ms.entries, ∀ dkv ∈ ms.entries,
    akv.2.IsDeny = false → dkv.2.IsDeny = true →
    dkv.1.broaderOrEqualPP akv.1 →
    (dkv.1.identity = akv.1.identity ∨ dkv.1.identity = 0) → False

/-! ### Supporting lemmas: association lists and key reconstruction -/

section MoreAList

variable {α : Type}

theorem mem_aset {l : List (Key × α)} {q : Key} {x : α} {kv : Key × α}
    (h : kv ∈ aset l q x) : kv = (q, x) ∨ kv ∈ l := by
  induction l with
  | nil => simpa [aset] using h
  | cons hd t ih =>
    obtain ⟨k, v⟩ := hd
    by_cases hk : k = q
    · subst hk
      rcases List.mem_cons.mp (by simpa [aset] using h) with h1 | h1
      · exact Or.inl h1
      · exact Or.inr (List.mem_cons_of_mem _ h1)
    · rcases List.mem_cons.mp (by simpa [aset, if_neg hk] using h) with h1 | h1
      · exact Or.inr (h1 ▸ List.mem_cons_self _ _)
      · rcases ih h1 with h2 | h2
        · exact Or.inl h2
        · exact Or.inr (List.mem_cons_of_mem _ h2)

theorem mem_aset_strong {l : List (Key × α)} (hnd : NodupKeys l) {q : Key} {x : α}
    {kv : Key × α} (h : kv ∈ aset l q x) : kv = (q, x) ∨ (kv ∈ l ∧ kv.1 ≠ q) := by
  induction l with
  | nil => simpa [aset] using h
  | cons hd t ih =>
    obtain ⟨k, v⟩ := hd
    simp only [NodupKeys, List.map_cons, List.nodup_cons] at hnd
    by_cases hk : k = q
    · subst hk
      rcases List.mem_cons.mp (by simpa [aset] using h) with h1 | h1
      · exact Or.inl h1
      · refine Or.inr ⟨List.mem_cons_of_mem _ h1, ?_⟩
        intro hq
        exact hnd.1 (List.mem_map.mpr ⟨kv, h1, hq⟩)
    · rcases List.mem_cons.mp (by simpa [aset, if_neg hk] using h) with h1 | h1
      · exact Or.inr ⟨h1 ▸ List.mem_cons_self _ _, by simp [h1, hk]⟩
      · rcases ih hnd.2 h1 with h2 | h2
        · exact Or.inl h2
        · exact Or.inr ⟨List.mem_cons_of_mem _ h2.1, h2.2⟩

theorem mem_of_mem_aerase {l : List (Key × α)} {q : Key} {kv : Key × α}
    (h : kv ∈ aerase l q) : kv ∈ l := by
  induction l with
  | nil => simp [aerase] at h
  | cons hd t ih =>
    obtain ⟨k, v⟩ := hd
    by_cases hk : k = q
    · subst hk
      exact List.mem_cons_of_mem _ (by simpa [aerase] using h)
    · rcases List.mem_cons.mp (by simpa [aerase, if_neg hk] using h) with h1 | h1
      · exact h1 ▸ List.mem_cons_self _ _
      · exact List.mem_cons_of_mem _ (ih h1)

theorem ne_of_mem_aerase {l : List (Key × α)} (hnd : NodupKeys l) {q : Key}
    {kv : Key × α} (h : kv ∈ aerase l q) : kv.1 ≠ q := by
  intro hq
  have hnd' : NodupKeys (aerase l q) := nodupKeys_aerase hnd q
  obtain ⟨k, v⟩ := kv
  subst hq
  have := alookup_eq_some_of_mem hnd' h
  rw [alookup_aerase_self hnd _] at this
  exact Option.noConfusion this

theorem alookup_isSome_aset {l : List (Key × α)} (q q' : Key) (x : α) :
    (alookup (aset l q x) q').isSome = if q' = q then true else (alookup l q').isSome := by
  by_cases h : q' = q
  · subst h; simp
  · simp [alookup_aset_ne l (fun hh => h hh.symm) x, h]

end MoreAList

theorem Key.withIdentity_withIdentity (k : Key) (a b : Nat) :
    (k.withIdentity a).withIdentity b = k.withIdentity b := rfl

theorem Key.withIdentity_zero_eq_self {k : Key} (h : k.identity = 0) :
    k.withIdentity 0 = k := by
  cases k
  simp_all [Key.withIdentity]

theorem Key.trieKey_withIdentity (k : Key) (id : Nat) :
    (k.withIdentity id).trieKey = k.trieKey := rfl

theorem Key.trieKey_withIdentity_self {k : Key} (h : k.WF) :
    k.trieKey.withIdentity k.identity = k := by
  rw [Key.trieKey_eq_withIdentity_zero h, Key.withIdentity_withIdentity]
  rfl

theorem Key.trieKey_identity (k : Key) : k.trieKey.identity = 0 := rfl

theorem Key.eq_of_trieKey_eq {k k' : Key} (hk : k.WF) (hk' : k'.WF)
    (ht : k.trieKey = k'.trieKey) (hid : k.identity = k'.identity) : k = k' := by
  have h1 := Key.trieKey_withIdentity_self hk
  have h2 := Key.trieKey_withIdentity_self hk'
  rw [← h1, ← h2, ht, hid]

theorem Key.trieKey_of_leaf {p : Key} (h0 : p.identity = 0) (hw : p.WF) :
    p.trieKey = p := by
  rw [Key.trieKey_eq_withIdentity_zero hw]
  exact Key.withIdentity_zero_eq_self h0

theorem Key.wf_trieKey {k : Key} (h : k.WF) : k.trieKey.WF := by
  rw [Key.trieKey_eq_withIdentity_zero h]
  exact h

/-! ### Projection lemmas for the container mutations -/

theorem mapState.upsert_entries (ms : mapState) (k : Key) (e : mapStateEntry) :
    (ms.upsert k e).entries = aset ms.entries k e := by
  simp only [mapState.upsert]
  split <;> rfl

theorem mapState.upsert_trie_of_isSome (ms : mapState) {k : Key}
    (h : (alookup ms.entries k).isSome) (e : mapStateEntry) :
    (ms.upsert k e).trie = ms.trie := by
  have hn : (alookup ms.entries k).isNone = false := by
    cases hh : alookup ms.entries k with
    | none => rw [hh] at h; simp at h
    | some v => rfl
  simp [mapState.upsert, hn]

theorem mapState.upsert_trie_of_isNone (ms : mapState) {k : Key}
    (h : alookup ms.entries k = none) (e : mapStateEntry) :
    (ms.upsert k e).trie =
      aset ms.trie k.trieKey
        (Insert.insert k.identity ((alookup ms.trie k.trieKey).getD ∅)) := by
  simp [mapState.upsert, h]

theorem mapState.lookup_upsert_self (ms : mapState) (k : Key) (e : mapStateEntry) :
    alookup (ms.upsert k e).entries k = some e := by
  rw [mapState.upsert_entries]; exact alookup_aset_self _ _ _

theorem mapState.lookup_upsert_ne (ms : mapState) {k q : Key} (h : k ≠ q) (e : mapStateEntry) :
    alookup (ms.upsert k e).entries q = alookup ms.entries q := by
  rw [mapState.upsert_entries]; exact alookup_aset_ne _ h _

theorem mapState.delete_entries (ms : mapState) (k : Key) :
    (ms.delete k).entries =
      if (alookup ms.entries k).isSome then aerase ms.entries k else ms.entries := by
  simp only [mapState.delete]
  by_cases h : (alookup ms.entries k).isSome
  · rw [if_pos h, if_pos h]
    cases alookup ms.trie k.trieKey with
    | none => rfl
    | some s =>
      dsimp only
      split <;> rfl
  · rw [if_neg h, if_neg h]

theorem mapState.lookup_delete_self {ms : mapState} (hnd : NodupKeys ms.entries) (k : Key) :
    alookup (ms.delete k).entries k = none := by
  rw [mapState.delete_entries]
  by_cases h : (alookup ms.entries k).isSome
  · rw [if_pos h]; exact alookup_aerase_self hnd k
  · rw [if_neg h]
    cases hh : alookup ms.entries k with
    | none => rfl
    | some v => rw [hh] at h; simp at h

theorem mapState.lookup_delete_ne (ms : mapState) {k q : Key} (h : k ≠ q) :
    alookup (ms.delete k).entries q = alookup ms.entries q := by
  rw [mapState.delete_entries]
  by_cases hs : (alookup ms.entries k).isSome
  · rw [if_pos hs]; exact alookup_aerase_ne _ h
  · rw [if_neg hs]

theorem mapState.nodup_delete {ms : mapState} (hnd : NodupKeys ms.entries) (k : Key) :
    NodupKeys (ms.delete k).entries := by
  rw [mapState.delete_entries]
  split
  · exact nodupKeys_aerase hnd k
  · exact hnd

theorem mapState.nodup_upsert {ms : mapState} (hnd : NodupKeys ms.entries) (k : Key)
    (e : mapStateEntry) : NodupKeys (ms.upsert k e).entries := by
  rw [mapState.upsert_entries]
  exact nodupKeys_aset hnd k e

theorem mapState.updateExisting_entries (ms : mapState) (k : Key) (v : mapStateEntry) :
    (ms.updateExisting k v).entries = aset ms.entries k v := rfl

theorem mapState.updateExisting_trie (ms : mapState) (k : Key) (v : mapStateEntry) :
    (ms.updateExisting k v).trie = ms.trie := rfl

/-! ### Invariant preservation for the primitive container mutations -/

theorem mapState.invariant_newMapState : newMapState.Invariant := by
  refine ⟨List.nodup_nil, List.nodup_nil, ?_, ?_, ?_, ?_⟩ <;>
    simp [newMapState, mapState.Consistent]

theorem mapState.upsert_invariant {ms : mapState} (h : ms.Invariant) {k : Key}
    (hk : k.WF) (e : mapStateEntry) : (ms.upsert k e).Invariant := by
  obtain ⟨hndE, hndT, hWFe, hWFt, hC1, hC2⟩ := h
  by_cases hnew : (alookup ms.entries k).isSome
  · -- existing key: value update only, trie untouched
    obtain ⟨v₀, hv₀⟩ := Option.isSome_iff_exists.mp hnew
    refine ⟨mapState.nodup_upsert hndE k e, ?_, ?_, ?_, ?_, ?_⟩
    · rw [mapState.upsert_trie_of_isSome ms hnew e]; exact hndT
    · intro kv hkv
      rw [mapState.upsert_entries] at hkv
      rcases mem_aset hkv with rfl | hmem
      · exact hk
      · exact hWFe kv hmem
    · rw [mapState.upsert_trie_of_isSome ms hnew e]; exact hWFt
    · intro kv hkv
      rw [mapState.upsert_entries] at hkv
      rw [mapState.upsert_trie_of_isSome ms hnew e]
      rcases mem_aset_strong hndE hkv with rfl | ⟨hmem, -⟩
      · exact hC1 (k, v₀) (mem_of_alookup_eq_some hv₀)
      · exact hC1 kv hmem
    · intro ps hps
      rw [mapState.upsert_trie_of_isSome ms hnew e] at hps
      obtain ⟨h0, hne, hlk⟩ := hC2 ps hps
      refine ⟨h0, hne, ?_⟩
      intro id hid
      rw [mapState.upsert_entries, alookup_isSome_aset]
      split
      · rfl
      · exact hlk id hid
  · -- new key: trie leaf gains the identity (creating the leaf on demand)
    have hnone : alookup ms.entries k = none := by
      cases hh : alookup ms.entries k with
      | none => rfl
      | some v => rw [hh] at hnew; simp at hnew
    have htrie := mapState.upsert_trie_of_isNone ms hnone e
    have hkmem : k ∉ ms.entries.map Prod.fst := by
      intro hmem
      rcases List.mem_map.mp hmem with ⟨⟨k', v'⟩, hkv', h1⟩
      cases h1
      rw [alookup_eq_some_of_mem hndE hkv'] at hnone
      exact Option.noConfusion hnone
    refine ⟨mapState.nodup_upsert hndE k e, ?_, ?_, ?_, ?_, ?_⟩
    · rw [htrie]; exact nodupKeys_aset hndT _ _
    · intro kv hkv
      rw [mapState.upsert_entries] at hkv
      rcases mem_aset hkv with rfl | hmem
      · exact hk
      · exact hWFe kv hmem
    · intro ps hps
      rw [htrie] at hps
      rcases mem_aset hps with rfl | hmem
      · exact Key.wf_trieKey hk
      · exact hWFt ps hmem
    · intro kv hkv
      rw [mapState.upsert_entries] at hkv
      rw [htrie]
      rcases mem_aset_strong hndE hkv with rfl | ⟨hmem, hne⟩
      · exact ⟨_, alookup_aset_self _ _ _, Finset.mem_insert_self _ _⟩
      · obtain ⟨s₀, hs₀, hid₀⟩ := hC1 kv hmem
        by_cases ht : kv.1.trieKey = k.trieKey
        · rw [ht] at hs₀
          refine ⟨_, by rw [ht]; exact alookup_aset_self _ _ _, ?_⟩
          rw [hs₀]
          simp only [Option.getD_some]
          exact Finset.mem_insert_of_mem hid₀
        · exact ⟨s₀, by rw [alookup_aset_ne _ (fun hh => ht hh.symm)]; exact hs₀, hid₀⟩
    · intro ps hps
      rw [htrie] at hps
      rw [mapState.upsert_entries]
      rcases mem_aset_strong hndT hps with rfl | ⟨hmem, hne⟩
      · refine ⟨rfl, Finset.insert_nonempty _ _, ?_⟩
        intro id hid
        rcases Finset.mem_insert.mp hid with rfl | hid'
        · rw [alookup_isSome_aset]
          rw [if_pos (Key.trieKey_withIdentity_self hk)]
        · cases hlk : alookup ms.trie k.trieKey with
          | none => rw [hlk] at hid'; simp at hid'
          | some s₀ =>
            rw [hlk] at hid'
            simp only [Option.getD_some] at hid'
            obtain ⟨-, -, horig⟩ := hC2 (k.trieKey, s₀) (mem_of_alookup_eq_some hlk)
            rw [alookup_isSome_aset]
            split
            · rfl
            · exact horig id hid'
      · obtain ⟨h0, hnemp, hlk⟩ := hC2 ps hmem
        refine ⟨h0, hnemp, ?_⟩
        intro id hid
        rw [alookup_isSome_aset]
        split
        · rfl
        · exact hlk id hid

theorem mapState.delete_of_absent {ms : mapState} {k : Key}
    (h : alookup ms.entries k = none) : ms.delete k = ms := by
  simp only [mapState.delete]
  rw [if_neg (by simp [h])]

theorem mapState.delete_trie_erase {ms : mapState} {k : Key} {s : IDSet}
    (hex : (alookup ms.entries k).isSome) (hs : alookup ms.trie k.trieKey = some s)
    (he : s.erase k.identity = ∅) : (ms.delete k).trie = aerase ms.trie k.trieKey := by
  simp only [mapState.delete]
  rw [if_pos hex, hs]
  dsimp only
  rw [if_pos he]

theorem mapState.delete_trie_shrink {ms : mapState} {k : Key} {s : IDSet}
    (hex : (alookup ms.entries k).isSome) (hs : alookup ms.trie k.trieKey = some s)
    (he : s.erase k.identity ≠ ∅) :
    (ms.delete k).trie = aset ms.trie k.trieKey (s.erase k.identity) := by
  simp only [mapState.delete]
  rw [if_pos hex, hs]
  dsimp only
  rw [if_neg he]

theorem mapState.delete_invariant {ms : mapState} (h : ms.Invariant) (k : Key) :
    (ms.delete k).Invariant := by
  obtain ⟨hndE, hndT, hWFe, hWFt, hC1, hC2⟩ := h
  by_cases hex : (alookup ms.entries k).isSome
  · obtain ⟨v₀, hv₀⟩ := Option.isSome_iff_exists.mp hex
    have hkmem : (k, v₀) ∈ ms.entries := mem_of_alookup_eq_some hv₀
    have hkWF : k.WF := hWFe (k, v₀) hkmem
    obtain ⟨s, hs, hks⟩ := hC1 (k, v₀) hkmem
    have hentries : (ms.delete k).entries = aerase ms.entries k := by
      rw [mapState.delete_entries, if_pos hex]
    have hndE' : NodupKeys (ms.delete k).entries := by
      rw [hentries]; exact nodupKeys_aerase hndE k
    have hWFe' : ∀ kv ∈ (ms.delete k).entries, kv.1.WF := by
      rw [hentries]
      exact fun kv hkv => hWFe kv (mem_of_mem_aerase hkv)
    -- identities at the same leaf differ from k's
    have hidne : ∀ kv : Key × mapStateEntry, kv ∈ aerase ms.entries k →
        kv.1.trieKey = k.trieKey → kv.1.identity ≠ k.identity := by
      intro kv hkv ht hid
      exact ne_of_mem_aerase hndE hkv
        (Key.eq_of_trieKey_eq (hWFe kv (mem_of_mem_aerase hkv)) hkWF ht hid)
    by_cases he : s.erase k.identity = ∅
    · -- the leaf becomes empty and is removed
      have htrie := mapState.delete_trie_erase hex hs he
      refine ⟨hndE', ?_, hWFe', ?_, ?_, ?_⟩
      · rw [htrie]; exact nodupKeys_aerase hndT _
      · rw [htrie]
        exact fun ps hps => hWFt ps (mem_of_mem_aerase hps)
      · rw [hentries, htrie]
        intro kv hkv
        obtain ⟨s₀, hs₀, hid₀⟩ := hC1 kv (mem_of_mem_aerase hkv)
        by_cases ht : kv.1.trieKey = k.trieKey
        · exfalso
          rw [ht, hs] at hs₀
          cases hs₀
          have : kv.1.identity ∈ s.erase k.identity :=
            Finset.mem_erase.mpr ⟨hidne kv hkv ht, hid₀⟩
          rw [he] at this
          exact absurd this (Finset.not_mem_empty _)
        · exact ⟨s₀, by rw [alookup_aerase_ne _ (fun hh => ht hh.symm)]; exact hs₀, hid₀⟩
      · rw [hentries, htrie]
        intro ps hps
        obtain ⟨h0, hne, hlk⟩ := hC2 ps (mem_of_mem_aerase hps)
        have htne : ps.1 ≠ k.trieKey := ne_of_mem_aerase hndT hps
        refine ⟨h0, hne, ?_⟩
        intro id hid
        have hne2 : ps.1.withIdentity id ≠ k := by
          intro heq
          refine htne ?_
          calc ps.1 = ps.1.trieKey :=
                (Key.trieKey_of_leaf h0 (hWFt ps (mem_of_mem_aerase hps))).symm
            _ = (ps.1.withIdentity id).trieKey := (Key.trieKey_withIdentity _ _).symm
            _ = k.trieKey := by rw [heq]
        rw [alookup_aerase_ne _ (Ne.symm hne2)]
        exact hlk id hid
    · -- the leaf shrinks
      have htrie := mapState.delete_trie_shrink hex hs he
      refine ⟨hndE', ?_, hWFe', ?_, ?_, ?_⟩
      · rw [htrie]; exact nodupKeys_aset hndT _ _
      · rw [htrie]
        intro ps hps
        rcases mem_aset hps with rfl | hmem
        · exact Key.wf_trieKey hkWF
        · exact hWFt ps hmem
      · rw [hentries, htrie]
        intro kv hkv
        obtain ⟨s₀, hs₀, hid₀⟩ := hC1 kv (mem_of_mem_aerase hkv)
        by_cases ht : kv.1.trieKey = k.trieKey
        · rw [ht, hs] at hs₀
          cases hs₀
          refine ⟨s.erase k.identity, by rw [ht]; exact alookup_aset_self _ _ _, ?_⟩
          exact Finset.mem_erase.mpr ⟨hidne kv hkv ht, hid₀⟩
        · exact ⟨s₀, by rw [alookup_aset_ne _ (fun hh => ht hh.symm)]; exact hs₀, hid₀⟩
      · rw [hentries, htrie]
        intro ps hps
        rcases mem_aset_strong hndT hps with rfl | ⟨hmem, htne⟩
        · refine ⟨Key.trieKey_identity k, Finset.nonempty_iff_ne_empty.mpr he, ?_⟩
          intro id hid
          obtain ⟨hidk, hids⟩ := Finset.mem_erase.mp hid
          obtain ⟨-, -, hlk⟩ := hC2 (k.trieKey, s) (mem_of_alookup_eq_some hs)
          have hne2 : k.trieKey.withIdentity id ≠ k := by
            intro heq
            exact hidk (by rw [← heq]; rfl)
          rw [alookup_aerase_ne _ (Ne.symm hne2)]
          exact hlk id hids
        · obtain ⟨h0, hne, hlk⟩ := hC2 ps hmem
          refine ⟨h0, hne, ?_⟩
          intro id hid
          have hne2 : ps.1.withIdentity id ≠ k := by
            intro heq
            refine htne ?_
            calc ps.1 = ps.1.trieKey := (Key.trieKey_of_leaf h0 (hWFt ps hmem)).symm
              _ = (ps.1.withIdentity id).trieKey := (Key.trieKey_withIdentity _ _).symm
              _ = k.trieKey := by rw [heq]
          rw [alookup_aerase_ne _ (Ne.symm hne2)]
          exact hlk id hid
  · have hnone : alookup ms.entries k = none := by
      cases hh : alookup ms.entries k with
      | none => rfl
      | some v => rw [hh] at hex; simp at hex
    rw [mapState.delete_of_absent hnone]
    exact ⟨hndE, hndT, hWFe, hWFt, hC1, hC2⟩

theorem mapState.updateExisting_invariant {ms : mapState} (h : ms.Invariant) {k : Key}
    (hex : (alookup ms.entries k).isSome) (v : mapStateEntry) :
    (ms.updateExisting k v).Invariant := by
  obtain ⟨hndE, hndT, hWFe, hWFt, hC1, hC2⟩ := h
  obtain ⟨v₀, hv₀⟩ := Option.isSome_iff_exists.mp hex
  refine ⟨nodupKeys_aset hndE k v, hndT, ?_, hWFt, ?_, ?_⟩
  · intro kv hkv
    rcases mem_aset hkv with rfl | hmem
    · exact hWFe (k, v₀) (mem_of_alookup_eq_some hv₀)
    · exact hWFe kv hmem
  · intro kv hkv
    rcases mem_aset_strong hndE hkv with rfl | ⟨hmem, -⟩
    · exact hC1 (k, v₀) (mem_of_alookup_eq_some hv₀)
    · exact hC1 kv hmem
  · intro ps hps
    obtain ⟨h0, hne, hlk⟩ := hC2 ps hps
    refine ⟨h0, hne, ?_⟩
    intro id hid
    rw [mapState.updateExisting_entries, alookup_isSome_aset]
    split
    · rfl
    · exact hlk id hid

/-! ### Properties of `merge` -/

theorem mapStateEntry.merge_IsDeny (e entry : mapStateEntry) :
    (e.merge entry).IsDeny = e.IsDeny := by
  unfold mapStateEntry.merge
  dsimp only
  split_ifs <;> rfl

/-! ### Entry-level effects of the engine mutations -/

theorem mapState.insert_entries_lookup_self (ms : mapState) (k : Key) (v : mapStateEntry) :
    alookup (ms.insert k v).entries k = some v :=
  mapState.lookup_upsert_self ms k v

theorem mapState.insert_entries_lookup_ne (ms : mapState) {k q : Key} (h : k ≠ q)
    (v : mapStateEntry) : alookup (ms.insert k v).entries q = alookup ms.entries q :=
  mapState.lookup_upsert_ne ms h v

theorem mapState.addKeyWithChanges_lookup_ne (ms : mapState) (key : Key)
    (entry : mapStateEntry) (changes : ChangeState) {q : Key} (h : q ≠ key) :
    alookup (ms.addKeyWithChanges key entry changes).1.entries q = alookup ms.entries q := by
  unfold mapState.addKeyWithChanges
  cases hget : ms.get key with
  | none =>
    exact mapState.insert_entries_lookup_ne ms (Ne.symm h) entry
  | some oldEntry =>
    dsimp only
    split_ifs
    · rfl
    · rw [mapState.updateExisting_entries, alookup_aset_ne _ (fun hh => h hh.symm)]
    · rw [mapState.updateExisting_entries, alookup_aset_ne _ (fun hh => h hh.symm)]
    · exact mapState.insert_entries_lookup_ne ms (Ne.symm h) entry
    · rfl

theorem mapState.addKeyWithChanges_deny_lookup {ms : mapState} {key : Key}
    {entry : mapStateEntry} (changes : ChangeState) (hdeny : entry.IsDeny = true)
    (hsafe : ∀ v, alookup ms.entries key = some v → v.IsDeny = true) :
    ∃ v, alookup (ms.addKeyWithChanges key entry changes).1.entries key = some v ∧
      v.IsDeny = true := by
  unfold mapState.addKeyWithChanges
  cases hget : ms.get key with
  | none =>
    exact ⟨entry, mapState.insert_entries_lookup_self ms key entry, hdeny⟩
  | some oldEntry =>
    have hold : oldEntry.IsDeny = true := hsafe oldEntry hget
    dsimp only
    split_ifs
    · exact ⟨oldEntry, hget, hold⟩
    · refine ⟨oldEntry.merge entry, ?_, ?_⟩
      · rw [mapState.updateExisting_entries]; exact alookup_aset_self _ _ _
      · rw [mapStateEntry.merge_IsDeny]; exact hold
    · refine ⟨oldEntry.merge entry, ?_, ?_⟩
      · rw [mapState.updateExisting_entries]; exact alookup_aset_self _ _ _
      · rw [mapStateEntry.merge_IsDeny]; exact hold
    · exact ⟨entry, mapState.insert_entries_lookup_self ms key entry, hdeny⟩

theorem mapState.deleteKeyWithChanges_none_lookup {ms : mapState}
    (hnd : NodupKeys ms.entries) (key : Key) (changes : ChangeState) (q : Key) :
    alookup ((ms.deleteKeyWithChanges key none changes).1).entries q =
      if q = key then none else alookup ms.entries q := by
  unfold mapState.deleteKeyWithChanges
  cases hget : ms.get key with
  | none =>
    dsimp only
    by_cases h : q = key
    · rw [if_pos h, h]; exact hget
    · rw [if_neg h]
  | some entry =>
    dsimp only
    by_cases h : q = key
    · rw [if_pos h, h]; exact mapState.lookup_delete_self hnd key
    · rw [if_neg h]; exact mapState.lookup_delete_ne ms (fun hh => h hh.symm)

/-! ### Invariant preservation for the engine mutations -/

theorem mapState.insert_invariant {ms : mapState} (h : ms.Invariant) {k : Key}
    (hk : k.WF) (v : mapStateEntry) : (ms.insert k v).Invariant :=
  mapState.upsert_invariant h hk v

theorem mapState.addKeyWithChanges_invariant {ms : mapState} (h : ms.Invariant)
    {key : Key} (hk : key.WF) (entry : mapStateEntry) (changes : ChangeState) :
    (ms.addKeyWithChanges key entry changes).1.Invariant := by
  unfold mapState.addKeyWithChanges
  cases hget : ms.get key with
  | none => exact mapState.insert_invariant h hk entry
  | some oldEntry =>
    have hex : (alookup ms.entries key).isSome := by
      rw [show alookup ms.entries key = some oldEntry from hget]; rfl
    dsimp only
    split_ifs
    · exact h
    · exact mapState.updateExisting_invariant h hex _
    · exact mapState.updateExisting_invariant h hex _
    · exact mapState.insert_invariant h hk entry
    · exact h

theorem mapState.deleteKeyWithChanges_invariant {ms : mapState} (h : ms.Invariant)
    (key : Key) (owner : Option Nat) (changes : ChangeState) :
    (ms.deleteKeyWithChanges key owner changes).1.Invariant := by
  unfold mapState.deleteKeyWithChanges
  cases hget : ms.get key with
  | none => exact h
  | some entry =>
    have hex : (alookup ms.entries key).isSome := by
      rw [show alookup ms.entries key = some entry from hget]; rfl
    cases owner with
    | none => exact mapState.delete_invariant h key
    | some o =>
      dsimp only
      split_ifs
      · exact mapState.updateExisting_invariant h hex _
      · exact mapState.delete_invariant h key
      · exact h
      · exact h

theorem mapState.overrideAuthType_eq (ms : mapState) (newEntry : mapStateEntry) (k : Key)
    (v : mapStateEntry) (changes : ChangeState) :
    (ms.overrideAuthType newEntry k v changes).1 =
      ms.updateExisting k { v with AuthType := newEntry.AuthType } := rfl

theorem mapState.overrideAuthType_invariant {ms : mapState} (h : ms.Invariant)
    (newEntry : mapStateEntry) {k : Key} (hex : (alookup ms.entries k).isSome)
    (v : mapStateEntry) (changes : ChangeState) :
    (ms.overrideAuthType newEntry k v changes).1.Invariant := by
  rw [mapState.overrideAuthType_eq]
  exact mapState.updateExisting_invariant h hex _

/-! ### Iterator lemmas -/

theorem mapState.mem_yieldKey {ms : mapState} {k k' : Key} {e : mapStateEntry} :
    (k', e) ∈ ms.yieldKey k ↔ k' = k ∧ alookup ms.entries k = some e := by
  unfold mapState.yieldKey
  cases h : alookup ms.entries k with
  | none => simp
  | some v =>
    simp only [List.mem_singleton, Prod.mk.injEq, Option.some.injEq]
    constructor
    · rintro ⟨rfl, rfl⟩; exact ⟨rfl, rfl⟩
    · rintro ⟨rfl, rfl⟩; exact ⟨rfl, rfl⟩

theorem mapState.mem_leavesAsc {ms : mapState} {pred : Key → Prop} [DecidablePred pred]
    {ps : Key × IDSet} (h : ps ∈ ms.leavesAsc pred) : ps ∈ ms.trie ∧ pred ps.1 := by
  unfold mapState.leavesAsc at h
  rw [List.mem_flatMap] at h
  obtain ⟨l, -, hmem⟩ := h
  rw [List.mem_filter] at hmem
  refine ⟨hmem.1, ?_⟩
  have := hmem.2
  simp only [decide_eq_true_eq] at this
  exact this.2

theorem mapState.mem_leavesAsc_of {ms : mapState} {pred : Key → Prop} [DecidablePred pred]
    {ps : Key × IDSet} (hmem : ps ∈ ms.trie) (hp : pred ps.1)
    (hlen : ps.1.portPrefixLen < 17) : ps ∈ ms.leavesAsc pred := by
  unfold mapState.leavesAsc
  rw [List.mem_flatMap]
  refine ⟨ps.1.portPrefixLen, List.mem_range.mpr hlen, ?_⟩
  rw [List.mem_filter]
  exact ⟨hmem, by simp [hp]⟩

theorem mapState.mem_leavesDesc {ms : mapState} {pred : Key → Prop} [DecidablePred pred]
    {ps : Key × IDSet} (h : ps ∈ ms.leavesDesc pred) : ps ∈ ms.trie ∧ pred ps.1 := by
  unfold mapState.leavesDesc at h
  rw [List.mem_flatMap] at h
  obtain ⟨l, -, hmem⟩ := h
  rw [List.mem_filter] at hmem
  refine ⟨hmem.1, ?_⟩
  have := hmem.2
  simp only [decide_eq_true_eq] at this
  exact this.2

/-- Soundness of `BroaderOrEqualKeys`: every yielded pair is a present map
entry on a broader-or-equal port/proto prefix whose identity is the
wildcard or the query's identity. -/
theorem mapState.mem_BroaderOrEqualKeys {ms : mapState} {key k' : Key} {v : mapStateEntry}
    (h : (k', v) ∈ ms.BroaderOrEqualKeys key) :
    alookup ms.entries k' = some v ∧ k'.broaderOrEqualPP key ∧
      (k'.identity = 0 ∨ k'.identity = key.identity) := by
  unfold mapState.BroaderOrEqualKeys at h
  rw [List.mem_flatMap] at h
  obtain ⟨ps, hps, hmem⟩ := h
  obtain ⟨-, hpred⟩ := mapState.mem_leavesAsc hps
  rw [List.mem_append] at hmem
  rcases hmem with hmem | hmem
  · split_ifs at hmem with h0
    · obtain ⟨rfl, hlk⟩ := mapState.mem_yieldKey.mp hmem
      exact ⟨hlk, hpred, Or.inl rfl⟩
    · simp at hmem
  · split_ifs at hmem with h0
    · obtain ⟨rfl, hlk⟩ := mapState.mem_yieldKey.mp hmem
      exact ⟨hlk, hpred, Or.inr rfl⟩
    · simp at hmem

/-- Completeness of `BroaderOrEqualKeys` on consistent states: a present map
entry on a broader-or-equal prefix whose identity is the wildcard or the
query's identity is yielded. -/
theorem mapState.BroaderOrEqualKeys_complete {ms : mapState} (hInv : ms.Invariant)
    {key b : Key} {v : mapStateEntry} (hb : alookup ms.entries b = some v)
    (hrel : b.broaderOrEqualPP key) (hid : b.identity = 0 ∨ b.identity = key.identity) :
    (b, v) ∈ ms.BroaderOrEqualKeys key := by
  obtain ⟨hndE, hndT, hWFe, hWFt, hC1, hC2⟩ := hInv
  have hbmem : (b, v) ∈ ms.entries := mem_of_alookup_eq_some hb
  have hbWF : b.WF := hWFe (b, v) hbmem
  obtain ⟨s, hs, hbs⟩ := hC1 (b, v) hbmem
  have hleafmem : (b.trieKey, s) ∈ ms.trie := mem_of_alookup_eq_some hs
  have hlWF : b.trieKey.WF := hWFt (b.trieKey, s) hleafmem
  have hlen : b.trieKey.portPrefixLen < 17 := Nat.lt_succ_of_le hlWF.1
  have hpred : b.trieKey.broaderOrEqualPP key := by
    rw [Key.trieKey_eq_withIdentity_zero hbWF]
    exact hrel
  have hleaf : (b.trieKey, s) ∈ ms.leavesAsc fun p => p.broaderOrEqualPP key :=
    mapState.mem_leavesAsc_of hleafmem hpred hlen
  unfold mapState.BroaderOrEqualKeys
  rw [List.mem_flatMap]
  refine ⟨(b.trieKey, s), hleaf, ?_⟩
  rw [List.mem_append]
  rcases hid with h0 | hsame
  · left
    rw [if_pos (by rw [← h0]; exact hbs)]
    rw [mapState.mem_yieldKey]
    have : b.trieKey.withIdentity 0 = b := by
      rw [← h0]; exact Key.trieKey_withIdentity_self hbWF
    rw [this]
    exact ⟨rfl, hb⟩
  · by_cases hz : b.identity = 0
    · left
      rw [if_pos (by rw [← hz]; exact hbs)]
      rw [mapState.mem_yieldKey]
      have : b.trieKey.withIdentity 0 = b := by
        rw [← hz]; exact Key.trieKey_withIdentity_self hbWF
      rw [this]
      exact ⟨rfl, hb⟩
    · right
      rw [if_pos ⟨by rw [← hsame]; exact hz, by rw [← hsame]; exact hbs⟩]
      rw [mapState.mem_yieldKey]
      have : b.trieKey.withIdentity key.identity = b := by
        rw [← hsame]; exact Key.trieKey_withIdentity_self hbWF
      rw [this]
      exact ⟨rfl, hb⟩

/-- Soundness of `NarrowerOrEqualKeys`: every yielded pair is a present map
entry. -/
theorem mapState.mem_NarrowerOrEqualKeys {ms : mapState} {key k' : Key} {v : mapStateEntry}
    (h : (k', v) ∈ ms.NarrowerOrEqualKeys key) : alookup ms.entries k' = some v := by
  unfold mapState.NarrowerOrEqualKeys at h
  rw [List.mem_flatMap] at h
  obtain ⟨ps, hps, hmem⟩ := h
  split_ifs at hmem with h0 hin
  · rw [List.mem_flatMap] at hmem
    obtain ⟨id, -, hy⟩ := hmem
    obtain ⟨rfl, hlk⟩ := mapState.mem_yieldKey.mp hy
    exact hlk
  · obtain ⟨rfl, hlk⟩ := mapState.mem_yieldKey.mp hmem
    exact hlk
  · simp at hmem

/-- Completeness of `NarrowerOrEqualKeys` on consistent states: a present
map entry on a narrower-or-equal prefix is yielded when the query has the
wildcard identity, and also when it carries exactly the query's identity. -/
theorem mapState.NarrowerOrEqualKeys_complete {ms : mapState} (hInv : ms.Invariant)
    {key a : Key} {v : mapStateEntry} (ha : alookup ms.entries a = some v)
    (hrel : key.broaderOrEqualPP a) (hid : key.identity = 0 ∨ a.identity = key.identity) :
    (a, v) ∈ ms.NarrowerOrEqualKeys key := by
  obtain ⟨hndE, hndT, hWFe, hWFt, hC1, hC2⟩ := hInv
  have hamem : (a, v) ∈ ms.entries := mem_of_alookup_eq_some ha
  have haWF : a.WF := hWFe (a, v) hamem
  obtain ⟨s, hs, has⟩ := hC1 (a, v) hamem
  have hleafmem : (a.trieKey, s) ∈ ms.trie := mem_of_alookup_eq_some hs
  have hlWF : a.trieKey.WF := hWFt (a.trieKey, s) hleafmem
  have hlen : a.trieKey.portPrefixLen < 17 := Nat.lt_succ_of_le hlWF.1
  have hpred : key.broaderOrEqualPP a.trieKey := by
    rw [Key.trieKey_eq_withIdentity_zero haWF]
    exact hrel
  have hleaf : (a.trieKey, s) ∈ ms.leavesAsc fun p => key.broaderOrEqualPP p :=
    mapState.mem_leavesAsc_of hleafmem hpred hlen
  unfold mapState.NarrowerOrEqualKeys
  rw [List.mem_flatMap]
  refine ⟨(a.trieKey, s), hleaf, ?_⟩
  rcases hid with h0 | hsame
  · rw [if_pos h0, List.mem_flatMap]
    refine ⟨a.identity, by rw [Finset.mem_sort]; exact has, ?_⟩
    rw [mapState.mem_yieldKey, Key.trieKey_withIdentity_self haWF]
    exact ⟨rfl, ha⟩
  · by_cases h0 : key.identity = 0
    · rw [if_pos h0, List.mem_flatMap]
      refine ⟨a.identity, by rw [Finset.mem_sort]; exact has, ?_⟩
      rw [mapState.mem_yieldKey, Key.trieKey_withIdentity_self haWF]
      exact ⟨rfl, ha⟩
    · rw [if_neg h0, if_pos (by rw [← hsame]; exact has), mapState.mem_yieldKey]
      have : a.trieKey.withIdentity key.identity = a := by
        rw [← hsame]; exact Key.trieKey_withIdentity_self haWF
      rw [this]
      exact ⟨rfl, ha⟩

/-- Soundness of `SubsetKeysWithSameID`: every yielded pair is a present
map entry with the query's identity on a strictly narrower prefix. -/
theorem mapState.mem_SubsetKeysWithSameID {ms : mapState} {key k' : Key} {v : mapStateEntry}
    (h : (k', v) ∈ ms.SubsetKeysWithSameID key) :
    alookup ms.entries k' = some v ∧ k'.identity = key.identity ∧
      key.broaderOrEqualPP k' ∧ ¬ k'.portProtoIsEqual key := by
  unfold mapState.SubsetKeysWithSameID at h
  rw [List.mem_flatMap] at h
  obtain ⟨ps, hps, hmem⟩ := h
  obtain ⟨-, hpred⟩ := mapState.mem_leavesAsc hps
  split_ifs at hmem with hin
  · obtain ⟨rfl, hlk⟩ := mapState.mem_yieldKey.mp hmem
    refine ⟨hlk, rfl, hpred.1, ?_⟩
    intro hpp
    exact hpred.2 hpp
  · simp at hmem

/-! ### Fold lemmas for the engine loops -/

theorem mapState.deleteKeyWithChanges_nodup {ms : mapState} (hnd : NodupKeys ms.entries)
    (key : Key) (owner : Option Nat) (changes : ChangeState) :
    NodupKeys (ms.deleteKeyWithChanges key owner changes).1.entries := by
  unfold mapState.deleteKeyWithChanges
  cases hget : ms.get key with
  | none => exact hnd
  | some entry =>
    cases owner with
    | none => exact mapState.nodup_delete hnd key
    | some o =>
      dsimp only
      split_ifs
      · exact nodupKeys_aset hnd _ _
      · exact mapState.nodup_delete hnd key
      · exact hnd
      · exact hnd

/-- Effect of the deny-vacuum loop on the entries: exactly the keys of the
iterated list are removed. -/
theorem fold_dkwc_lookup (l : List (Key × mapStateEntry)) :
    ∀ (ms : mapState) (ch : ChangeState), NodupKeys ms.entries → ∀ q,
    alookup (l.foldl (fun p kv => p.1.deleteKeyWithChanges kv.1 none p.2) (ms, ch)).1.entries q =
      if q ∈ l.map Prod.fst then none else alookup ms.entries q := by
  induction l with
  | nil => intro ms ch hnd q; simp
  | cons hd t ih =>
    intro ms ch hnd q
    obtain ⟨k₀, v₀⟩ := hd
    rw [List.foldl_cons]
    dsimp only
    have ih' := ih (ms.deleteKeyWithChanges k₀ none ch).1
      (ms.deleteKeyWithChanges k₀ none ch).2
      (mapState.deleteKeyWithChanges_nodup hnd k₀ none ch) q
    rw [Prod.mk.eta] at ih'
    rw [ih', mapState.deleteKeyWithChanges_none_lookup hnd k₀ ch q]
    by_cases h0 : q = k₀ <;> by_cases ht : q ∈ t.map Prod.fst <;>
      simp [h0, ht]

theorem fold_dkwc_invariant (l : List (Key × mapStateEntry)) :
    ∀ (ms : mapState) (ch : ChangeState), ms.Invariant →
    (l.foldl (fun p kv => p.1.deleteKeyWithChanges kv.1 none p.2) (ms, ch)).1.Invariant := by
  induction l with
  | nil => intro ms ch h; exact h
  | cons hd t ih =>
    intro ms ch h
    obtain ⟨k₀, v₀⟩ := hd
    rw [List.foldl_cons]
    dsimp only
    have := ih (ms.deleteKeyWithChanges k₀ none ch).1 (ms.deleteKeyWithChanges k₀ none ch).2
      (mapState.deleteKeyWithChanges_invariant h k₀ none ch)
    rw [Prod.mk.eta] at this
    exact this

/-- The override loop leaves keys outside the walked list untouched. -/
theorem fold_override_lookup_notin (newEntry : mapStateEntry)
    (l : List (Key × mapStateEntry)) :
    ∀ (ms : mapState) (ch : ChangeState) (q : Key), (∀ kv ∈ l, kv.1 ≠ q) →
    alookup (l.foldl (fun p kv => p.1.overrideAuthType newEntry kv.1 kv.2 p.2)
      (ms, ch)).1.entries q = alookup ms.entries q := by
  induction l with
  | nil => intro ms ch q _; rfl
  | cons hd t ih =>
    intro ms ch q hne
    obtain ⟨k₀, v₀⟩ := hd
    rw [List.foldl_cons]
    dsimp only
    have ih' := ih (ms.overrideAuthType newEntry k₀ v₀ ch).1
      (ms.overrideAuthType newEntry k₀ v₀ ch).2 q
      (fun kv hkv => hne kv (List.mem_cons_of_mem _ hkv))
    rw [Prod.mk.eta] at ih'
    rw [ih', mapState.overrideAuthType_eq, mapState.updateExisting_entries,
      alookup_aset_ne _ (hne (k₀, v₀) (List.mem_cons_self _ _))]

/-- Every pair in the walked list has its auth type overwritten in place:
the final entry at each walked key is the snapshot entry with the new auth
type (the rest of the entry, in particular `HasAuthType`, kept intact). -/
theorem fold_override_lookup (newEntry : mapStateEntry)
    (l : List (Key × mapStateEntry)) :
    ∀ (ms : mapState) (ch : ChangeState) (k : Key) (v : mapStateEntry),
    (∀ v₁ v₂, (k, v₁) ∈ l → (k, v₂) ∈ l → v₁ = v₂) → (k, v) ∈ l →
    alookup (l.foldl (fun p kv => p.1.overrideAuthType newEntry kv.1 kv.2 p.2)
      (ms, ch)).1.entries k = some { v with AuthType := newEntry.AuthType } := by
  induction l with
  | nil => intro ms ch k v _ hm; simp at hm
  | cons hd t ih =>
    intro ms ch k v hfun hm
    obtain ⟨k₀, v₀⟩ := hd
    rw [List.foldl_cons]
    dsimp only
    by_cases hmem : ∃ v', (k, v') ∈ t
    · obtain ⟨v', hv'⟩ := hmem
      have hvv : v' = v := by
        rcases List.mem_cons.mp hm with heq | hmemt
        · cases heq
          exact hfun v' v (List.mem_cons_of_mem _ hv') (List.mem_cons_self _ _)
        · exact hfun v' v (List.mem_cons_of_mem _ hv') (List.mem_cons_of_mem _ hmemt)
      subst hvv
      have ih' := ih (ms.overrideAuthType newEntry k₀ v₀ ch).1
        (ms.overrideAuthType newEntry k₀ v₀ ch).2 k v'
        (fun v₁ v₂ h1 h2 =>
          hfun v₁ v₂ (List.mem_cons_of_mem _ h1) (List.mem_cons_of_mem _ h2)) hv'
      rw [Prod.mk.eta] at ih'
      exact ih'
    · push_neg at hmem
      rcases List.mem_cons.mp hm with heq | hmemt
      · cases heq
        have hnot := fold_override_lookup_notin newEntry t
          (ms.overrideAuthType newEntry k v ch).1
          (ms.overrideAuthType newEntry k v ch).2 k
          (fun kv hkv hk => hmem kv.2 (by rw [← hk, Prod.mk.eta]; exact hkv))
        rw [Prod.mk.eta] at hnot
        rw [hnot, mapState.overrideAuthType_eq, mapState.updateExisting_entries]
        exact alookup_aset_self _ _ _
      · exact absurd hmemt (hmem v)

theorem fold_override_invariant (newEntry : mapStateEntry)
    (l : List (Key × mapStateEntry)) :
    ∀ (ms : mapState) (ch : ChangeState), ms.Invariant →
    (∀ kv ∈ l, (alookup ms.entries kv.1).isSome) →
    (l.foldl (fun p kv => p.1.overrideAuthType newEntry kv.1 kv.2 p.2)
      (ms, ch)).1.Invariant := by
  induction l with
  | nil => intro ms ch h _; exact h
  | cons hd t ih =>
    intro ms ch h hpres
    obtain ⟨k₀, v₀⟩ := hd
    rw [List.foldl_cons]
    dsimp only
    have hpres₀ := hpres (k₀, v₀) (List.mem_cons_self _ _)
    have hInv₁ := mapState.overrideAuthType_invariant h newEntry hpres₀ v₀ ch
    have hpres' : ∀ kv ∈ t,
        (alookup (ms.overrideAuthType newEntry k₀ v₀ ch).1.entries kv.1).isSome := by
      intro kv hkv
      rw [mapState.overrideAuthType_eq, mapState.updateExisting_entries, alookup_isSome_aset]
      split
      · rfl
      · exact hpres kv (List.mem_cons_of_mem _ hkv)
    have := ih (ms.overrideAuthType newEntry k₀ v₀ ch).1
      (ms.overrideAuthType newEntry k₀ v₀ ch).2 hInv₁ hpres'
    rw [Prod.mk.eta] at this
    exact this

/-- Effect of the revert delete loop. -/
theorem fold_delete_lookup (l : List Key) :
    ∀ (ms : mapState), NodupKeys ms.entries → ∀ q,
    alookup (l.foldl mapState.delete ms).entries q =
      if q ∈ l then none else alookup ms.entries q := by
  induction l with
  | nil => intro ms hnd q; simp
  | cons k₀ t ih =>
    intro ms hnd q
    rw [List.foldl_cons]
    rw [ih (ms.delete k₀) (mapState.nodup_delete hnd k₀) q]
    by_cases h0 : q = k₀
    · subst h0
      by_cases ht : q ∈ t <;> simp [ht, mapState.lookup_delete_self hnd]
    · by_cases ht : q ∈ t <;>
        simp [ht, h0, mapState.lookup_delete_ne ms (fun hh => h0 hh.symm)]

/-- Effect of the revert reinsert loop. -/
theorem fold_insert_lookup (o : List (Key × mapStateEntry)) :
    ∀ (ms : mapState), NodupKeys o → ∀ q,
    alookup ((o.foldl (fun m kv => m.insert kv.1 kv.2) ms)).entries q =
      match alookup o q with
      | some v => some v
      | none => alookup ms.entries q := by
  induction o with
  | nil => intro ms _ q; rfl
  | cons hd t ih =>
    intro ms hnd q
    obtain ⟨k₀, v₀⟩ := hd
    simp only [NodupKeys, List.map_cons, List.nodup_cons] at hnd
    rw [List.foldl_cons]
    dsimp only
    rw [ih (ms.insert k₀ v₀) hnd.2 q]
    rw [alookup_cons]
    by_cases h0 : k₀ = q
    · subst h0
      have ht : alookup t k₀ = none :=
        alookup_eq_none_of_not_mem_keys hnd.1
      rw [ht, if_pos rfl]
      exact mapState.insert_entries_lookup_self ms k₀ v₀
    · rw [if_neg h0]
      cases alookup t q with
      | some v => rfl
      | none => exact mapState.insert_entries_lookup_ne ms h0 v₀

theorem mapState.authPreferredInsert_invariant {ms : mapState} (h : ms.Invariant)
    {newKey : Key} (hk : newKey.WF) (newEntry : mapStateEntry) (changes : ChangeState) :
    (ms.authPreferredInsert newKey newEntry changes).1.Invariant := by
  unfold mapState.authPreferredInsert
  split_ifs
  · exact mapState.addKeyWithChanges_invariant h hk _ _
  · dsimp only
    have hpres : ∀ kv ∈ (ms.SubsetKeysWithSameID newKey).takeWhile
        (fun kv => ¬ (kv.2.IsDeny = true ∨ kv.2.HasAuthType = .ExplicitAuthType)),
        (alookup ms.entries kv.1).isSome := by
      intro kv hkv
      have hmem := (List.takeWhile_sublist _).mem hkv
      obtain ⟨k', v'⟩ := kv
      obtain ⟨hlk, -, -, -⟩ := mapState.mem_SubsetKeysWithSameID hmem
      rw [hlk]; rfl
    have hInv₁ := fold_override_invariant newEntry _ ms changes h hpres
    exact mapState.addKeyWithChanges_invariant hInv₁ hk _ _

theorem mapState.insertWithChanges_invariant {ms : mapState} (h : ms.Invariant)
    {newKey : Key} (hk : newKey.WF) (entry : mapStateEntry) (authRules : Bool)
    (changes : ChangeState) :
    (ms.insertWithChanges newKey entry authRules changes).1.Invariant := by
  unfold mapState.insertWithChanges mapState.denyPreferredInsertWithChanges
  split_ifs
  · exact h
  · dsimp only
    have hInv₁ := fold_dkwc_invariant ((ms.NarrowerOrEqualKeys newKey).filter
      (fun kv => ¬ (kv.2.IsDeny = true ∧ kv.1 = newKey))) ms changes h
    exact mapState.addKeyWithChanges_invariant hInv₁ hk _ _
  · exact mapState.authPreferredInsert_invariant h hk entry changes
  · exact mapState.addKeyWithChanges_invariant h hk _ _

/-! ### Claim theorems -/

/-- C1: deny dominance.  For every engine-maintained map state (one
satisfying the container invariant and deny dominance, as every state
produced by the engine does) and every deny entry inserted via
`insertWithChanges` with key `d`, after the insertion no key `a` remains in
the map with `is_deny = false` whose port/proto prefix is narrower than or
equal to `d`'s and whose identity satisfies
`a.identity = d.identity ∨ d.identity = 0`: the insertion deletes every
narrower-or-equal covered key other than the identical deny key being
merged. -/
theorem c1_deny_insert_dominance {ms : mapState} (hInv : ms.Invariant)
    (hDom : ms.DenyDominant) {d : Key} (hd : d.WF) {de : mapStateEntry}
    (hdeny : de.IsDeny = true) (authRules : Bool) (changes : ChangeState)
    {a : Key} {v : mapStateEntry}
    (hlook : alookup (ms.insertWithChanges d de authRules changes).1.entries a = some v)
    (hrel : d.broaderOrEqualPP a) (hid : a.identity = d.identity ∨ d.identity = 0) :
    v.IsDeny = true := by
  have hnd : NodupKeys ms.entries := hInv.1
  unfold mapState.insertWithChanges mapState.denyPreferredInsertWithChanges at hlook
  split_ifs at hlook with hbail
  · -- covered by an existing deny: the state is unchanged and deny
    -- dominance of the pre-state rules out any such allow entry
    rw [List.any_eq_true] at hbail
    obtain ⟨kv, hkvmem, hkvp⟩ := hbail
    rw [decide_eq_true_eq] at hkvp
    obtain ⟨hkvdeny, -⟩ := hkvp
    obtain ⟨hkvlook, hkvrel, hkvid⟩ := mapState.mem_BroaderOrEqualKeys hkvmem
    by_contra hv
    rw [Bool.not_eq_true] at hv
    refine hDom (a, v) (mem_of_alookup_eq_some hlook) kv
      (mem_of_alookup_eq_some hkvlook) hv hkvdeny ?_ ?_
    · exact Key.broaderOrEqualPP_trans hd.1 hkvrel hrel
    · rcases hkvid with h0 | hsame
      · exact Or.inr h0
      · rcases hid with ha | h0d
        · exact Or.inl (by rw [hsame, ← ha])
        · exact Or.inr (by rw [hsame, h0d])
  · -- the new deny vacuums all covered narrower-or-equal keys
    dsimp only at hlook
    have hfold := fold_dkwc_lookup ((ms.NarrowerOrEqualKeys d).filter
      (fun kv => decide ¬ (kv.2.IsDeny = true ∧ kv.1 = d))) ms changes hnd
    by_cases hak : a = d
    · subst hak
      have hsafe : ∀ w, alookup (((ms.NarrowerOrEqualKeys a).filter
          (fun kv => decide ¬ (kv.2.IsDeny = true ∧ kv.1 = a))).foldl
          (fun p kv => p.1.deleteKeyWithChanges kv.1 none p.2)
          (ms, changes)).1.entries a = some w → w.IsDeny = true := by
        intro w hwl
        rw [hfold a] at hwl
        split_ifs at hwl with hmem
        by_contra hw
        rw [Bool.not_eq_true] at hw
        have hnar : (a, w) ∈ ms.NarrowerOrEqualKeys a :=
          mapState.NarrowerOrEqualKeys_complete hInv hwl
            (Key.broaderOrEqualPP_refl a) (Or.inr rfl)
        have hdm : (a, w) ∈ (ms.NarrowerOrEqualKeys a).filter
            (fun kv => decide ¬ (kv.2.IsDeny = true ∧ kv.1 = a)) :=
          List.mem_filter.mpr ⟨hnar, by simp [hw]⟩
        exact hmem (List.mem_map.mpr ⟨(a, w), hdm, rfl⟩)
      obtain ⟨w, hw, hwdeny⟩ :=
        mapState.addKeyWithChanges_deny_lookup _ hdeny hsafe
      rw [hw] at hlook
      cases hlook
      exact hwdeny
    · rw [mapState.addKeyWithChanges_lookup_ne _ _ _ _ hak] at hlook
      rw [hfold a] at hlook
      split_ifs at hlook with hmem
      by_contra hv
      rw [Bool.not_eq_true] at hv
      have hnar : (a, v) ∈ ms.NarrowerOrEqualKeys d :=
        mapState.NarrowerOrEqualKeys_complete hInv hlook hrel
          (by rcases hid with h | h
              · exact Or.inr h
              · exact Or.inl h)
      have hdm : (a, v) ∈ (ms.NarrowerOrEqualKeys d).filter
          (fun kv => decide ¬ (kv.2.IsDeny = true ∧ kv.1 = d)) :=
        List.mem_filter.mpr ⟨hnar, by simp [hv]⟩
      exact hmem (List.mem_map.mpr ⟨(a, v), hdm, rfl⟩)

/-- C2: deny shadowing aborts an insert.  On every consistent map state that
contains a deny entry whose port/proto prefix is broader than or equal to
`k` and whose identity is `k`'s identity or the wildcard `0`, inserting any
entry at `k` that is not the identical deny key being re-inserted for merge
leaves the entries, the trie and the change set (adds, deletes, old)
completely unchanged. -/
theorem c2_deny_shadow_abort {ms : mapState} (hInv : ms.Invariant)
    {bk k : Key} {bv e : mapStateEntry} (hb : alookup ms.entries bk = some bv)
    (hbdeny : bv.IsDeny = true) (hrel : bk.broaderOrEqualPP k)
    (hid : bk.identity = k.identity ∨ bk.identity = 0)
    (hnm : ¬ (e.IsDeny = true ∧ bk = k)) (authRules : Bool) (changes : ChangeState) :
    ms.insertWithChanges k e authRules changes = (ms, changes) := by
  have hmem : (bk, bv) ∈ ms.BroaderOrEqualKeys k :=
    mapState.BroaderOrEqualKeys_complete hInv hb hrel
      (by rcases hid with h | h
          · exact Or.inr h
          · exact Or.inl h)
  unfold mapState.insertWithChanges mapState.denyPreferredInsertWithChanges
  rw [if_pos (List.any_eq_true.mpr ⟨(bk, bv), hmem, by
    rw [decide_eq_true_eq]
    exact ⟨hbdeny, hnm⟩⟩)]

/-! ### ChangeState bookkeeping lemmas -/

theorem kinsert_mem {l : List Key} {k q : Key} : q ∈ kinsert l k ↔ q = k ∨ q ∈ l := by
  unfold kinsert
  split_ifs with h
  · constructor
    · exact fun hq => Or.inr hq
    · rintro (rfl | hq)
      · exact h
      · exact hq
  · exact List.mem_cons

theorem ChangeState.inAdds_getD {ch : ChangeState} (h : ch.Adds.isSome) (q : Key) :
    ch.inAdds q ↔ q ∈ ch.Adds.getD [] := by
  unfold ChangeState.inAdds
  cases hA : ch.Adds with
  | none => rw [hA] at h; simp at h
  | some a => simp

section InsertOldLemmas

variable {ch : ChangeState} {q : Key} {w : mapStateEntry}

theorem ChangeState.insertOld_Adds (ch : ChangeState) (q : Key) (w : mapStateEntry) :
    ((ch.insertOldIfNotExists q w).1).Adds = ch.Adds := by
  unfold ChangeState.insertOldIfNotExists
  cases ch.old with
  | none => rfl
  | some o =>
    dsimp only
    split_ifs <;> rfl

theorem ChangeState.insertOld_Deletes (ch : ChangeState) (q : Key) (w : mapStateEntry) :
    ((ch.insertOldIfNotExists q w).1).Deletes = ch.Deletes := by
  unfold ChangeState.insertOldIfNotExists
  cases ch.old with
  | none => rfl
  | some o =>
    dsimp only
    split_ifs <;> rfl

theorem ChangeState.insertOld_oldSome (h : ch.old.isSome) (q : Key) (w : mapStateEntry) :
    ((ch.insertOldIfNotExists q w).1).old.isSome := by
  obtain ⟨A, D, O⟩ := ch
  cases O with
  | none => simp at h
  | some o =>
    unfold ChangeState.insertOldIfNotExists
    dsimp only
    split_ifs <;> rfl

theorem ChangeState.insertOld_nodup (h : NodupKeys (ch.old.getD [])) (q : Key)
    (w : mapStateEntry) : NodupKeys (((ch.insertOldIfNotExists q w).1).old.getD []) := by
  obtain ⟨A, D, O⟩ := ch
  cases O with
  | none => exact h
  | some o =>
    simp only [Option.getD_some] at h
    unfold ChangeState.insertOldIfNotExists
    dsimp only
    split_ifs with h1 h2
    · exact h
    · exact h
    · simp only [Option.getD_some, NodupKeys, List.map_cons, List.nodup_cons]
      refine ⟨?_, h⟩
      intro hq
      rcases List.mem_map.mp hq with ⟨kv, hkv, hfst⟩
      have := alookup_eq_some_of_mem h (show (q, kv.2) ∈ o by
        rw [← hfst, Prod.mk.eta]; exact hkv)
      simp [this] at h1

theorem ChangeState.insertOld_old_lookup_cases (ch : ChangeState) (q : Key)
    (w : mapStateEntry) (q' : Key) {w' : mapStateEntry}
    (h : alookup (((ch.insertOldIfNotExists q w).1).old.getD []) q' = some w') :
    alookup (ch.old.getD []) q' = some w' ∨
      (q' = q ∧ w' = w ∧ alookup (ch.old.getD []) q' = none ∧ ¬ ch.inAdds q') := by
  obtain ⟨A, D, O⟩ := ch
  cases O with
  | none => exact Or.inl h
  | some o =>
    unfold ChangeState.insertOldIfNotExists at h
    dsimp only at h ⊢
    split_ifs at h with h1 h2
    · exact Or.inl h
    · exact Or.inl h
    · simp only [Option.getD_some] at h ⊢
      rw [alookup_cons] at h
      by_cases hq : q = q'
      · subst hq
        rw [if_pos rfl] at h
        cases h
        refine Or.inr ⟨rfl, rfl, ?_, h2⟩
        cases hl : alookup o q with
        | none => rfl
        | some x => rw [hl] at h1; simp at h1
      · rw [if_neg hq] at h
        exact Or.inl h

theorem ChangeState.insertOld_old_mono (ch : ChangeState) (q : Key) (w : mapStateEntry)
    (q' : Key) (h : alookup (((ch.insertOldIfNotExists q w).1).old.getD []) q' = none) :
    alookup (ch.old.getD []) q' = none := by
  obtain ⟨A, D, O⟩ := ch
  cases O with
  | none => exact h
  | some o =>
    unfold ChangeState.insertOldIfNotExists at h
    dsimp only at h ⊢
    split_ifs at h
    · exact h
    · exact h
    · simp only [Option.getD_some] at h ⊢
      rw [alookup_cons] at h
      by_cases hq : q = q'
      · rw [if_pos hq] at h; exact Option.noConfusion h
      · rw [if_neg hq] at h; exact h

theorem ChangeState.insertOld_recorded (hOld : ch.old.isSome) (q : Key) (w : mapStateEntry) :
    (alookup (((ch.insertOldIfNotExists q w).1).old.getD []) q).isSome ∨ ch.inAdds q := by
  obtain ⟨A, D, O⟩ := ch
  cases O with
  | none => simp at hOld
  | some o =>
    unfold ChangeState.insertOldIfNotExists
    dsimp only
    split_ifs with h1 h2
    · left; exact h1
    · right; exact h2
    · left
      simp only [Option.getD_some, alookup_cons, if_pos rfl]
      rfl

theorem ChangeState.insertOld_noop (ch : ChangeState) (q : Key) (w : mapStateEntry)
    (h : (ch.insertOldIfNotExists q w).2 = false) : (ch.insertOldIfNotExists q w).1 = ch := by
  obtain ⟨A, D, O⟩ := ch
  cases O with
  | none => rfl
  | some o =>
    unfold ChangeState.insertOldIfNotExists at h ⊢
    dsimp only at h ⊢
    split_ifs at h ⊢ <;> rfl

end InsertOldLemmas

/-! ### The revert invariant (claim C3 machinery) -/

/-- Relation between the pre-batch state `S`, the current state `ms` and the
accumulated change set: old values are the pre-batch values, keys recorded
as added and not in `old` were absent before the batch, and keys neither
added nor recorded old are untouched. -/
structure RevertInv (S ms : mapState) (ch : ChangeState) : Prop where
  addsSome : ch.Adds.isSome
  deletesSome : ch.Deletes.isSome
  oldSome : ch.old.isSome
  oldNodup : NodupKeys (ch.old.getD [])
  msInv : ms.Invariant
  oldCorrect : ∀ q w, alookup (ch.old.getD []) q = some w → alookup S.entries q = some w
  addsFresh : ∀ q, q ∈ ch.Adds.getD [] → alookup (ch.old.getD []) q = none →
    alookup S.entries q = none
  untouched : ∀ q, q ∉ ch.Adds.getD [] → alookup (ch.old.getD []) q = none →
    alookup ms.entries q = alookup S.entries q

theorem revertInv_init {S : mapState} (h : S.Invariant) : RevertInv S S ChangeState.empty where
  addsSome := rfl
  deletesSome := rfl
  oldSome := rfl
  oldNodup := List.nodup_nil
  msInv := h
  oldCorrect := fun q w hq => by simp [ChangeState.empty] at hq
  addsFresh := fun q hq => by simp [ChangeState.empty] at hq
  untouched := fun q _ _ => rfl

/-- Reverting restores the pre-batch entries exactly. -/
theorem revertInv_revert {S ms : mapState} {ch : ChangeState} (h : RevertInv S ms ch) :
    ∀ q, alookup (ms.revertChanges ch).entries q = alookup S.entries q := by
  intro q
  unfold mapState.revertChanges
  rw [fold_insert_lookup _ _ h.oldNodup q,
    fold_delete_lookup _ _ h.msInv.1 q]
  cases hO : alookup (ch.old.getD []) q with
  | some w => exact (h.oldCorrect q w hO).symm
  | none =>
    dsimp only
    by_cases hA : q ∈ ch.Adds.getD []
    · rw [if_pos hA]
      exact (h.addsFresh q hA hO).symm
    · rw [if_neg hA]
      exact h.untouched q hA hO

theorem ChangeState.recordAdd_Adds {ch : ChangeState} {a : List Key}
    (ha : ch.Adds = some a) (key : Key) :
    (ch.recordAdd key).Adds = some (kinsert a key) := by
  obtain ⟨A, D, O⟩ := ch
  cases ha
  rfl

theorem ChangeState.recordAdd_Deletes {ch : ChangeState} {a : List Key}
    (ha : ch.Adds = some a) (key : Key) :
    (ch.recordAdd key).Deletes = ch.Deletes.map (·.erase key) := by
  obtain ⟨A, D, O⟩ := ch
  cases ha
  rfl

theorem ChangeState.recordAdd_old (ch : ChangeState) (key : Key) :
    (ch.recordAdd key).old = ch.old := by
  obtain ⟨A, D, O⟩ := ch
  cases A <;> rfl

theorem ChangeState.recordDelete_Deletes {ch : ChangeState} {d : List Key}
    (hd : ch.Deletes = some d) (key : Key) :
    (ch.recordDelete key).Deletes = some (kinsert d key) := by
  obtain ⟨A, D, O⟩ := ch
  cases hd
  rfl

theorem ChangeState.recordDelete_Adds {ch : ChangeState} {d : List Key}
    (hd : ch.Deletes = some d) (key : Key) :
    (ch.recordDelete key).Adds = ch.Adds.map (·.erase key) := by
  obtain ⟨A, D, O⟩ := ch
  cases hd
  rfl

theorem ChangeState.recordDelete_old (ch : ChangeState) (key : Key) :
    (ch.recordDelete key).old = ch.old := by
  obtain ⟨A, D, O⟩ := ch
  cases D <;> rfl

/-- Recording an old value and immediately erasing it again (the
owner-removal-miss path) leaves the change set as it was. -/
theorem ChangeState.insertOld_then_erase {ch : ChangeState} (q : Key) (w : mapStateEntry)
    (hadd : (ch.insertOldIfNotExists q w).2 = true) :
    ((ch.insertOldIfNotExists q w).1).eraseOld q = ch := by
  obtain ⟨A, D, O⟩ := ch
  cases O with
  | none => simp [ChangeState.insertOldIfNotExists] at hadd
  | some o =>
    unfold ChangeState.insertOldIfNotExists at hadd ⊢
    dsimp only at hadd ⊢
    split_ifs at hadd ⊢
    simp [ChangeState.eraseOld, aerase]

/-! ### RevertInv preservation for the primitive mutations -/

theorem revertInv_insertOld {S ms : mapState} {ch : ChangeState} (h : RevertInv S ms ch)
    (q : Key) (w : mapStateEntry)
    (hw : alookup (ch.old.getD []) q = none → q ∉ ch.Adds.getD [] →
      alookup ms.entries q = some w) :
    RevertInv S ms (ch.insertOldIfNotExists q w).1 where
  addsSome := by rw [ChangeState.insertOld_Adds]; exact h.addsSome
  deletesSome := by rw [ChangeState.insertOld_Deletes]; exact h.deletesSome
  oldSome := ChangeState.insertOld_oldSome h.oldSome q w
  oldNodup := ChangeState.insertOld_nodup h.oldNodup q w
  msInv := h.msInv
  oldCorrect := by
    intro q' w' hq'
    rcases ChangeState.insertOld_old_lookup_cases ch q w q' hq' with
      hpre | ⟨rfl, rfl, hnone, hnin⟩
    · exact h.oldCorrect q' w' hpre
    · have hnmem : q' ∉ ch.Adds.getD [] := by
        rw [← ChangeState.inAdds_getD h.addsSome]; exact hnin
      rw [← h.untouched q' hnmem hnone]
      exact hw hnone hnmem
  addsFresh := by
    intro q' hq' hnone
    rw [ChangeState.insertOld_Adds] at hq'
    exact h.addsFresh q' hq' (ChangeState.insertOld_old_mono ch q w q' hnone)
  untouched := by
    intro q' hq' hnone
    rw [ChangeState.insertOld_Adds] at hq'
    exact h.untouched q' hq' (ChangeState.insertOld_old_mono ch q w q' hnone)

theorem revertInv_updateExisting {S ms : mapState} {ch : ChangeState}
    (h : RevertInv S ms ch) {key : Key} (hex : (alookup ms.entries key).isSome)
    (v : mapStateEntry)
    (hcov : (alookup (ch.old.getD []) key).isSome ∨ key ∈ ch.Adds.getD []) :
    RevertInv S (ms.updateExisting key v) ch where
  addsSome := h.addsSome
  deletesSome := h.deletesSome
  oldSome := h.oldSome
  oldNodup := h.oldNodup
  msInv := mapState.updateExisting_invariant h.msInv hex v
  oldCorrect := h.oldCorrect
  addsFresh := h.addsFresh
  untouched := by
    intro q hq hnone
    have hne : q ≠ key := by
      rintro rfl
      rcases hcov with hs | hmem
      · rw [hnone] at hs; simp at hs
      · exact hq hmem
    rw [mapState.updateExisting_entries, alookup_aset_ne _ (fun hh => hne hh.symm)]
    exact h.untouched q hq hnone

theorem revertInv_recordAdd {S ms : mapState} {ch : ChangeState} (h : RevertInv S ms ch)
    (key : Key)
    (hSkey : alookup (ch.old.getD []) key = none → alookup S.entries key = none) :
    RevertInv S ms (ch.recordAdd key) := by
  obtain ⟨a, ha⟩ := Option.isSome_iff_exists.mp h.addsSome
  refine ⟨?_, ?_, ?_, ?_, h.msInv, ?_, ?_, ?_⟩
  · rw [ChangeState.recordAdd_Adds ha]; rfl
  · rw [ChangeState.recordAdd_Deletes ha, Option.isSome_map']; exact h.deletesSome
  · rw [ChangeState.recordAdd_old]; exact h.oldSome
  · rw [ChangeState.recordAdd_old]; exact h.oldNodup
  · rw [ChangeState.recordAdd_old]; exact h.oldCorrect
  · intro q hq hnone
    rw [ChangeState.recordAdd_old] at hnone
    rw [ChangeState.recordAdd_Adds ha] at hq
    simp only [Option.getD_some] at hq
    rcases kinsert_mem.mp hq with rfl | hmem
    · exact hSkey hnone
    · exact h.addsFresh q (by rw [ha]; exact hmem) hnone
  · intro q hq hnone
    rw [ChangeState.recordAdd_old] at hnone
    rw [ChangeState.recordAdd_Adds ha] at hq
    simp only [Option.getD_some] at hq
    refine h.untouched q (fun hmem => hq ?_) hnone
    rw [ha] at hmem
    exact kinsert_mem.mpr (Or.inr hmem)

theorem revertInv_deleteRecord {S ms : mapState} {ch : ChangeState} (h : RevertInv S ms ch)
    {key : Key}
    (hcov : (alookup (ch.old.getD []) key).isSome ∨ key ∈ ch.Adds.getD []) :
    RevertInv S (ms.delete key) (ch.recordDelete key) := by
  obtain ⟨a, ha⟩ := Option.isSome_iff_exists.mp h.addsSome
  obtain ⟨d, hd⟩ := Option.isSome_iff_exists.mp h.deletesSome
  refine ⟨?_, ?_, ?_, ?_, mapState.delete_invariant h.msInv key, ?_, ?_, ?_⟩
  · rw [ChangeState.recordDelete_Adds hd, Option.isSome_map']; exact h.addsSome
  · rw [ChangeState.recordDelete_Deletes hd]; rfl
  · rw [ChangeState.recordDelete_old]; exact h.oldSome
  · rw [ChangeState.recordDelete_old]; exact h.oldNodup
  · rw [ChangeState.recordDelete_old]; exact h.oldCorrect
  · intro q hq hnone
    rw [ChangeState.recordDelete_old] at hnone
    rw [ChangeState.recordDelete_Adds hd, ha] at hq
    simp only [Option.map_some', Option.getD_some] at hq
    exact h.addsFresh q (by rw [ha]; exact List.mem_of_mem_erase hq) hnone
  · intro q hq hnone
    rw [ChangeState.recordDelete_old] at hnone
    rw [ChangeState.recordDelete_Adds hd, ha] at hq
    simp only [Option.map_some', Option.getD_some] at hq
    by_cases hqk : q = key
    · subst hqk
      have hmem : q ∈ a := by
        rcases hcov with hs | hm
        · rw [hnone] at hs; simp at hs
        · rw [ha] at hm; exact hm
      rw [mapState.lookup_delete_self h.msInv.1 q,
        h.addsFresh q (by rw [ha]; exact hmem) hnone]
    · rw [mapState.lookup_delete_ne ms (fun hh => hqk hh.symm)]
      refine h.untouched q (fun hm => hq ?_) hnone
      rw [ha] at hm
      exact (List.mem_erase_of_ne hqk).mpr hm

theorem revertInv_addKey {S ms : mapState} {ch : ChangeState} (h : RevertInv S ms ch)
    {key : Key} (hk : key.WF) (entry : mapStateEntry)
    (hsafe : entry.IsDeny = true → ∀ w, alookup ms.entries key = some w →
      w.IsDeny = true) :
    RevertInv S (ms.addKeyWithChanges key entry ch).1
      (ms.addKeyWithChanges key entry ch).2.1 := by
  unfold mapState.addKeyWithChanges
  cases hget : ms.get key with
  | none =>
    dsimp only
    obtain ⟨a, ha⟩ := Option.isSome_iff_exists.mp h.addsSome
    have hSkey : alookup (ch.old.getD []) key = none → alookup S.entries key = none := by
      intro hnone
      by_cases hmem : key ∈ ch.Adds.getD []
      · exact h.addsFresh key hmem hnone
      · rw [← h.untouched key hmem hnone]
        exact hget
    have hch := revertInv_recordAdd h key hSkey
    refine ⟨hch.addsSome, hch.deletesSome, hch.oldSome, hch.oldNodup,
      mapState.insert_invariant h.msInv hk entry, hch.oldCorrect, hch.addsFresh, ?_⟩
    intro q hq hnone
    have hne : q ≠ key := by
      rintro rfl
      refine hq ?_
      rw [ChangeState.recordAdd_Adds ha]
      exact kinsert_mem.mpr (Or.inl rfl)
    rw [mapState.insert_entries_lookup_ne ms (fun hh => hne hh.symm)]
    exact hch.untouched q hq hnone
  | some oldEntry =>
    have hex : (alookup ms.entries key).isSome := by
      rw [show alookup ms.entries key = some oldEntry from hget]; rfl
    have h₁ : RevertInv S ms (ch.insertOldIfNotExists key oldEntry).1 :=
      revertInv_insertOld h key oldEntry (fun _ _ => hget)
    have hcov₁ : (alookup (((ch.insertOldIfNotExists key oldEntry).1).old.getD [])
        key).isSome ∨ key ∈ ((ch.insertOldIfNotExists key oldEntry).1).Adds.getD [] := by
      rcases ChangeState.insertOld_recorded h.oldSome key oldEntry with hs | hin
      · exact Or.inl hs
      · right
        rw [ChangeState.insertOld_Adds]
        rw [← ChangeState.inAdds_getD h.addsSome]
        exact hin
    have hSkey₁ : alookup (((ch.insertOldIfNotExists key oldEntry).1).old.getD [])
        key = none → alookup S.entries key = none := by
      intro hnone
      rcases hcov₁ with hs | hin
      · rw [hnone] at hs; simp at hs
      · rw [ChangeState.insertOld_Adds] at hin
        exact h.addsFresh key hin (ChangeState.insertOld_old_mono ch key oldEntry key hnone)
    dsimp only
    split_ifs with hpol hdeep hdp hdeny
    · exact h
    · -- merge, datapath-equal: no incremental add recorded
      exact revertInv_updateExisting h₁ hex _ hcov₁
    · -- merge with datapath change: record the add
      have h₂ := revertInv_updateExisting h₁ hex (oldEntry.merge entry) hcov₁
      exact revertInv_recordAdd h₂ key hSkey₁
    · -- a deny overwriting an allow is excluded by `hsafe`
      exact absurd (by rw [hsafe hdeny oldEntry hget, hdeny]) hpol
    · exact h

theorem revertInv_deleteKey {S ms : mapState} {ch : ChangeState} (h : RevertInv S ms ch)
    (key : Key) (owner : Option Nat) :
    RevertInv S (ms.deleteKeyWithChanges key owner ch).1
      (ms.deleteKeyWithChanges key owner ch).2 := by
  unfold mapState.deleteKeyWithChanges
  cases hget : ms.get key with
  | none => exact h
  | some entry =>
    have hex : (alookup ms.entries key).isSome := by
      rw [show alookup ms.entries key = some entry from hget]; rfl
    have h₁ : RevertInv S ms (ch.insertOldIfNotExists key entry).1 :=
      revertInv_insertOld h key entry (fun _ _ => hget)
    have hcov₁ : (alookup (((ch.insertOldIfNotExists key entry).1).old.getD [])
        key).isSome ∨ key ∈ ((ch.insertOldIfNotExists key entry).1).Adds.getD [] := by
      rcases ChangeState.insertOld_recorded h.oldSome key entry with hs | hin
      · exact Or.inl hs
      · right
        rw [ChangeState.insertOld_Adds]
        rw [← ChangeState.inAdds_getD h.addsSome]
        exact hin
    cases owner with
    | none =>
      dsimp only
      exact revertInv_deleteRecord h₁ hcov₁
    | some o =>
      dsimp only
      split_ifs with hhas hne hadd
      · exact revertInv_updateExisting h₁ hex _ hcov₁
      · exact revertInv_deleteRecord h₁ hcov₁
      · rw [ChangeState.insertOld_then_erase key entry hadd]
        exact h
      · rw [ChangeState.insertOld_noop ch key entry (Bool.not_eq_true _ |>.mp hadd)]
        exact h

theorem revertInv_fold_dkwc {S : mapState} (l : List (Key × mapStateEntry)) :
    ∀ (ms : mapState) (ch : ChangeState), RevertInv S ms ch →
    RevertInv S (l.foldl (fun p kv => p.1.deleteKeyWithChanges kv.1 none p.2) (ms, ch)).1
      (l.foldl (fun p kv => p.1.deleteKeyWithChanges kv.1 none p.2) (ms, ch)).2 := by
  induction l with
  | nil => intro ms ch h; exact ⟨h.addsSome, h.deletesSome, h.oldSome, h.oldNodup,
      h.msInv, h.oldCorrect, h.addsFresh, h.untouched⟩
  | cons hd t ih =>
    intro ms ch h
    obtain ⟨k₀, v₀⟩ := hd
    rw [List.foldl_cons]
    dsimp only
    have := ih (ms.deleteKeyWithChanges k₀ none ch).1 (ms.deleteKeyWithChanges k₀ none ch).2
      (revertInv_deleteKey h k₀ none)
    rw [Prod.mk.eta] at this
    exact this

theorem revertInv_fold_override {S : mapState} (newEntry : mapStateEntry)
    (l : List (Key × mapStateEntry)) :
    ∀ (ms : mapState) (ch : ChangeState), RevertInv S ms ch →
    (∀ kv ∈ l, (alookup ms.entries kv.1).isSome) →
    (∀ kv ∈ l, alookup ms.entries kv.1 = some kv.2 ∨
      (alookup (ch.old.getD []) kv.1).isSome ∨ kv.1 ∈ ch.Adds.getD []) →
    RevertInv S
      (l.foldl (fun p kv => p.1.overrideAuthType newEntry kv.1 kv.2 p.2) (ms, ch)).1
      (l.foldl (fun p kv => p.1.overrideAuthType newEntry kv.1 kv.2 p.2) (ms, ch)).2 := by
  induction l with
  | nil => intro ms ch h _ _; exact ⟨h.addsSome, h.deletesSome, h.oldSome, h.oldNodup,
      h.msInv, h.oldCorrect, h.addsFresh, h.untouched⟩
  | cons hd t ih =>
    intro ms ch h hpres hval
    obtain ⟨k₀, v₀⟩ := hd
    rw [List.foldl_cons]
    dsimp only
    have hpres₀ := hpres (k₀, v₀) (List.mem_cons_self _ _)
    have h₁ : RevertInv S ms (ch.insertOldIfNotExists k₀ v₀).1 := by
      refine revertInv_insertOld h k₀ v₀ ?_
      intro hnone hnin
      rcases hval (k₀, v₀) (List.mem_cons_self _ _) with hv | hs | hin
      · exact hv
      · rw [hnone] at hs; simp at hs
      · exact absurd hin hnin
    have hcov₁ : (alookup (((ch.insertOldIfNotExists k₀ v₀).1).old.getD [])
        k₀).isSome ∨ k₀ ∈ ((ch.insertOldIfNotExists k₀ v₀).1).Adds.getD [] := by
      rcases ChangeState.insertOld_recorded h.oldSome k₀ v₀ with hs | hin
      · exact Or.inl hs
      · right
        rw [ChangeState.insertOld_Adds]
        rw [← ChangeState.inAdds_getD h.addsSome]
        exact hin
    have h₂ : RevertInv S (ms.overrideAuthType newEntry k₀ v₀ ch).1
        (ms.overrideAuthType newEntry k₀ v₀ ch).2 := by
      rw [mapState.overrideAuthType_eq]
      exact revertInv_updateExisting h₁ hpres₀ _ hcov₁
    have hpres' : ∀ kv ∈ t,
        (alookup (ms.overrideAuthType newEntry k₀ v₀ ch).1.entries kv.1).isSome := by
      intro kv hkv
      rw [mapState.overrideAuthType_eq, mapState.updateExisting_entries, alookup_isSome_aset]
      split
      · rfl
      · exact hpres kv (List.mem_cons_of_mem _ hkv)
    have hval' : ∀ kv ∈ t,
        alookup (ms.overrideAuthType newEntry k₀ v₀ ch).1.entries kv.1 = some kv.2 ∨
        (alookup ((ms.overrideAuthType newEntry k₀ v₀ ch).2.old.getD []) kv.1).isSome ∨
        kv.1 ∈ (ms.overrideAuthType newEntry k₀ v₀ ch).2.Adds.getD [] := by
      intro kv hkv
      by_cases hk : kv.1 = k₀
      · rw [hk]
        rcases hcov₁ with hs | hin
        · exact Or.inr (Or.inl hs)
        · exact Or.inr (Or.inr hin)
      · rcases hval kv (List.mem_cons_of_mem _ hkv) with hv | hs | hin
        · left
          rw [mapState.overrideAuthType_eq, mapState.updateExisting_entries,
            alookup_aset_ne _ (fun hh => hk hh.symm)]
          exact hv
        · right; left
          show (alookup (((ch.insertOldIfNotExists k₀ v₀).1).old.getD []) kv.1).isSome
          cases hres : alookup (((ch.insertOldIfNotExists k₀ v₀).1).old.getD []) kv.1 with
          | none =>
            rw [ChangeState.insertOld_old_mono ch k₀ v₀ kv.1 hres] at hs
            simp at hs
          | some x => rfl
        · right; right
          show kv.1 ∈ ((ch.insertOldIfNotExists k₀ v₀).1).Adds.getD []
          rw [ChangeState.insertOld_Adds]
          exact hin
    have := ih (ms.overrideAuthType newEntry k₀ v₀ ch).1
      (ms.overrideAuthType newEntry k₀ v₀ ch).2 h₂ hpres' hval'
    rw [Prod.mk.eta] at this
    exact this

/-- After the deny-vacuum loop, whatever remains at the inserted key is a
deny entry. -/
theorem deny_loop_safe {ms : mapState} (hInv : ms.Invariant) (newKey : Key)
    (ch : ChangeState) :
    ∀ w, alookup (((ms.NarrowerOrEqualKeys newKey).filter
        (fun kv => decide ¬ (kv.2.IsDeny = true ∧ kv.1 = newKey))).foldl
        (fun p kv => p.1.deleteKeyWithChanges kv.1 none p.2)
        (ms, ch)).1.entries newKey = some w → w.IsDeny = true := by
  intro w hwl
  rw [fold_dkwc_lookup _ ms ch hInv.1 newKey] at hwl
  split_ifs at hwl with hmem
  by_contra hw
  rw [Bool.not_eq_true] at hw
  have hnar : (newKey, w) ∈ ms.NarrowerOrEqualKeys newKey :=
    mapState.NarrowerOrEqualKeys_complete hInv hwl
      (Key.broaderOrEqualPP_refl newKey) (Or.inr rfl)
  have hdm : (newKey, w) ∈ (ms.NarrowerOrEqualKeys newKey).filter
      (fun kv => decide ¬ (kv.2.IsDeny = true ∧ kv.1 = newKey)) :=
    List.mem_filter.mpr ⟨hnar, by simp [hw]⟩
  exact hmem (List.mem_map.mpr ⟨(newKey, w), hdm, rfl⟩)

theorem revertInv_authPreferredInsert {S ms : mapState} {ch : ChangeState}
    (h : RevertInv S ms ch) {newKey : Key} (hk : newKey.WF) {newEntry : mapStateEntry}
    (hallow : newEntry.IsDeny = false) :
    RevertInv S (ms.authPreferredInsert newKey newEntry ch).1
      (ms.authPreferredInsert newKey newEntry ch).2 := by
  unfold mapState.authPreferredInsert
  split_ifs with hdef
  · dsimp only
    set newEntry' := (match (ms.CoveringKeysWithSameID newKey).find?
        (fun kv => kv.2.IsDeny || decide (kv.2.HasAuthType = .ExplicitAuthType)) with
      | some kv => if kv.2.IsDeny = true then newEntry
          else { newEntry with AuthType := kv.2.AuthType }
      | none => newEntry) with hdefn
    have hallow' : newEntry'.IsDeny = false := by
      rw [hdefn]
      cases (ms.CoveringKeysWithSameID newKey).find?
          (fun kv => kv.2.IsDeny || decide (kv.2.HasAuthType = .ExplicitAuthType)) with
      | none => exact hallow
      | some kv =>
        dsimp only
        split_ifs <;> exact hallow
    have := revertInv_addKey h hk newEntry'
      (fun hden => absurd (hallow' ▸ hden) (by simp))
    exact ⟨this.addsSome, this.deletesSome, this.oldSome, this.oldNodup, this.msInv,
      this.oldCorrect, this.addsFresh, this.untouched⟩
  · dsimp only
    have hpres : ∀ kv ∈ (ms.SubsetKeysWithSameID newKey).takeWhile
        (fun kv => ¬ (kv.2.IsDeny = true ∨ kv.2.HasAuthType = .ExplicitAuthType)),
        (alookup ms.entries kv.1).isSome := by
      intro kv hkv
      have hmem := (List.takeWhile_sublist _).mem hkv
      obtain ⟨k', v'⟩ := kv
      obtain ⟨hlk, -, -, -⟩ := mapState.mem_SubsetKeysWithSameID hmem
      rw [hlk]; rfl
    have hval : ∀ kv ∈ (ms.SubsetKeysWithSameID newKey).takeWhile
        (fun kv => ¬ (kv.2.IsDeny = true ∨ kv.2.HasAuthType = .ExplicitAuthType)),
        alookup ms.entries kv.1 = some kv.2 ∨
        (alookup (ch.old.getD []) kv.1).isSome ∨ kv.1 ∈ ch.Adds.getD [] := by
      intro kv hkv
      have hmem := (List.takeWhile_sublist _).mem hkv
      obtain ⟨k', v'⟩ := kv
      obtain ⟨hlk, -, -, -⟩ := mapState.mem_SubsetKeysWithSameID hmem
      exact Or.inl hlk
    have hfold := revertInv_fold_override newEntry _ ms ch h hpres hval
    have := revertInv_addKey hfold hk newEntry
      (fun hden => absurd (hallow ▸ hden) (by simp))
    exact ⟨this.addsSome, this.deletesSome, this.oldSome, this.oldNodup, this.msInv,
      this.oldCorrect, this.addsFresh, this.untouched⟩

theorem revertInv_insertWithChanges {S ms : mapState} {ch : ChangeState}
    (h : RevertInv S ms ch) {newKey : Key} (hk : newKey.WF) (entry : mapStateEntry)
    (authRules : Bool) :
    RevertInv S (ms.insertWithChanges newKey entry authRules ch).1
      (ms.insertWithChanges newKey entry authRules ch).2 := by
  unfold mapState.insertWithChanges mapState.denyPreferredInsertWithChanges
  split_ifs with hbail hdeny hauth
  · exact h
  · dsimp only
    have hfold := revertInv_fold_dkwc ((ms.NarrowerOrEqualKeys newKey).filter
      (fun kv => decide ¬ (kv.2.IsDeny = true ∧ kv.1 = newKey))) ms ch h
    have hsafe : entry.IsDeny = true → ∀ w,
        alookup (((ms.NarrowerOrEqualKeys newKey).filter
          (fun kv => decide ¬ (kv.2.IsDeny = true ∧ kv.1 = newKey))).foldl
          (fun p kv => p.1.deleteKeyWithChanges kv.1 none p.2)
          (ms, ch)).1.entries newKey = some w → w.IsDeny = true :=
      fun _ => deny_loop_safe h.msInv newKey ch
    have := revertInv_addKey hfold hk entry hsafe
    exact ⟨this.addsSome, this.deletesSome, this.oldSome, this.oldNodup, this.msInv,
      this.oldCorrect, this.addsFresh, this.untouched⟩
  · exact revertInv_authPreferredInsert h hk (Bool.not_eq_true _ |>.mp hdeny)
  · dsimp only
    have := revertInv_addKey h hk entry
      (fun hden => absurd hden hdeny)
    exact ⟨this.addsSome, this.deletesSome, this.oldSome, this.oldNodup, this.msInv,
      this.oldCorrect, this.addsFresh, this.untouched⟩

/-! ### Batches of engine operations -/

/-- One engine mutation of a batch: an insertion through the precedence
engine or an (owner-scoped) incremental delete. -/
inductive EngineOp where
  | insertOp (k : Key) (e : mapStateEntry) (authRules : Bool)
  | deleteOp (k : Key) (owner : Option Nat)
deriving DecidableEq

/-- Apply one engine operation, threading the map state and the change set. -/
def applyOp (p : mapState × ChangeState) : EngineOp → mapState × ChangeState
  | .insertOp k e authRules => p.1.insertWithChanges k e authRules p.2
  | .deleteOp k owner => p.1.deleteKeyWithChanges k owner p.2

/-- Apply a batch of engine operations in order. -/
def applyBatch (p : mapState × ChangeState) (ops : List EngineOp) : mapState × ChangeState :=
  ops.foldl applyOp p

/-- Keys inserted by an operation are well-formed. -/
def EngineOp.keyWF : EngineOp → Prop
  | .insertOp k _ _ => k.WF
  | .deleteOp _ _ => True

instance (op : EngineOp) : Decidable op.keyWF := by
  cases op <;> (unfold EngineOp.keyWF; infer_instance)

theorem revertInv_applyBatch {S : mapState} (ops : List EngineOp) :
    ∀ (ms : mapState) (ch : ChangeState), RevertInv S ms ch →
    (∀ op ∈ ops, op.keyWF) →
    RevertInv S (applyBatch (ms, ch) ops).1 (applyBatch (ms, ch) ops).2 := by
  induction ops with
  | nil => intro ms ch h _; exact ⟨h.addsSome, h.deletesSome, h.oldSome, h.oldNodup,
      h.msInv, h.oldCorrect, h.addsFresh, h.untouched⟩
  | cons op t ih =>
    intro ms ch h hWF
    have hstep : RevertInv S (applyOp (ms, ch) op).1 (applyOp (ms, ch) op).2 := by
      cases op with
      | insertOp k e authRules =>
        exact revertInv_insertWithChanges h (hWF _ (List.mem_cons_self _ _)) e authRules
      | deleteOp k owner => exact revertInv_deleteKey h k owner
    unfold applyBatch
    rw [List.foldl_cons]
    have := ih (applyOp (ms, ch) op).1 (applyOp (ms, ch) op).2 hstep
      (fun o ho => hWF o (List.mem_cons_of_mem _ ho))
    rw [Prod.mk.eta] at this
    exact this

/-- C3: revert is inverse.  For every invariant-satisfying map state `S` and
every batch of `insertWithChanges` / `deleteKeyWithChanges` operations
(with well-formed inserted keys) recorded into a single fresh change set,
applying `revertChanges` with the accumulated change set afterwards
restores the entries map to exactly `S`: every key in `adds` is deleted and
every key-value recorded in `old` is reinserted, so every lookup (key set
and full entry, hence in particular the exported entry) agrees with `S`. -/
theorem c3_revert_is_inverse {S : mapState} (hInv : S.Invariant)
    (ops : List EngineOp) (hWF : ∀ op ∈ ops, op.keyWF) :
    ∀ q, alookup ((applyBatch (S, ChangeState.empty) ops).1.revertChanges
        (applyBatch (S, ChangeState.empty) ops).2).entries q =
      alookup S.entries q := by
  have h := revertInv_applyBatch ops S ChangeState.empty (revertInv_init hInv) hWF
  exact revertInv_revert h

/-! ### The C4 scenario: add K1, add K2, delete K1 in one batch -/

/-- K1 of scenario S4: ingress, identity 1, TCP port 80. -/
def c4Key1 : Key :=
  { trafficDirection := 0, identity := 1, nexthdr := 6, destPort := 80, portPrefixLen := 16 }

/-- K2 of scenario S4: ingress, identity 2, TCP port 443. -/
def c4Key2 : Key :=
  { trafficDirection := 0, identity := 2, nexthdr := 6, destPort := 443, portPrefixLen := 16 }

/-- A plain allow entry owned by selector 1. -/
def c4Entry : mapStateEntry := newMapStateEntry (some 1) [] 0 "" 0 false .DefaultAuthType 0

/-- The S4 batch on the empty map: add `K1`, add `K2`, then delete `K1`
unconditionally, all recorded into one fresh change set. -/
def c4Batch : mapState × ChangeState :=
  applyBatch (newMapState, ChangeState.empty)
    [.insertOp c4Key1 c4Entry false, .insertOp c4Key2 c4Entry false, .deleteOp c4Key1 none]

/-- C4 counterexample: after the add-K1 / add-K2 / delete-K1 batch the
change set does NOT have `deletes = {}` as the claim states: the
unconditional delete of `K1` is recorded in `deletes` even though `K1` was
added in the same batch (only the `adds` entry is cancelled). -/
theorem c4_counterexample :
    ¬ (c4Batch.2.Adds = some [c4Key2] ∧ c4Batch.2.Deletes = some []) := by
  decide

/-- C4 (amended): after the batch the change set has `adds = {K2}` and
`deletes = {K1}` — `K1` is removed from `adds` by the delete, but the
delete itself is recorded — no old value is recorded, and `revertChanges`
restores the empty map (entries and trie). -/
theorem c4_amended_batch_changes :
    c4Batch.2.Adds = some [c4Key2] ∧ c4Batch.2.Deletes = some [c4Key1] ∧
    c4Batch.2.old = some [] ∧
    (c4Batch.1.revertChanges c4Batch.2).entries = [] ∧
    (c4Batch.1.revertChanges c4Batch.2).trie = [] := by
  decide

/-! ### Raw container mutation sequences (claim C5) -/

/-- One raw container mutation: `upsert` or `delete`. -/
inductive RawOp where
  | upsertOp (k : Key) (e : mapStateEntry)
  | removeOp (k : Key)
deriving DecidableEq

/-- Apply one raw container mutation. -/
def applyRawOp (ms : mapState) : RawOp → mapState
  | .upsertOp k e => ms.upsert k e
  | .removeOp k => ms.delete k

/-- Apply a sequence of raw container mutations in order. -/
def applyRawOps (ms : mapState) (ops : List RawOp) : mapState :=
  ops.foldl applyRawOp ms

/-- Upserted keys are well-formed (masked port prefix, spec section 3). -/
def RawOp.keyWF : RawOp → Prop
  | .upsertOp k _ => k.WF
  | .removeOp _ => True

instance (op : RawOp) : Decidable op.keyWF := by
  cases op <;> (unfold RawOp.keyWF; infer_instance)

/-- C5: trie/map consistency.  After any sequence of `upsert` and `delete`
operations (with well-formed keys) on an invariant-satisfying map state,
the trie and the entries map are mutually consistent: for every key `k` in
the entries map the trie leaf at `k`'s identity-less prefix exists and its
identity set contains `k.identity`; conversely every identity in every trie
leaf's identity set corresponds to exactly one entries-map key with that
prefix (key uniqueness comes with `NodupKeys`); and no leaf has an empty
identity set (an emptied leaf is removed). -/
theorem c5_trie_map_consistency {ms : mapState} (hms : ms.Invariant)
    (ops : List RawOp) (hWF : ∀ op ∈ ops, op.keyWF) :
    (applyRawOps ms ops).Invariant := by
  induction ops generalizing ms with
  | nil => exact hms
  | cons op t ih =>
    unfold applyRawOps
    rw [List.foldl_cons]
    refine ih ?_ (fun o ho => hWF o (List.mem_cons_of_mem _ ho))
    cases op with
    | upsertOp k e => exact mapState.upsert_invariant hms (hWF _ (List.mem_cons_self _ _)) e
    | removeOp k => exact mapState.delete_invariant hms k

/-! ### Merge projection lemmas (claims C6 and C10) -/

theorem mapStateEntry.merge_ProxyPort_allow (e entry : mapStateEntry)
    (he : e.IsDeny = false) (hent : entry.IsDeny = false) :
    (e.merge entry).ProxyPort =
      if entry.IsRedirectEntry ∧ (¬ e.IsRedirectEntry ∨ entry.priority < e.priority ∨
          (entry.priority = e.priority ∧ entry.ProxyPort < e.ProxyPort)) then
        entry.ProxyPort
      else e.ProxyPort := by
  unfold mapStateEntry.merge
  rw [if_neg (by rw [he, hent]; simp)]
  dsimp only
  rw [if_neg (by rw [he]; simp)]
  split_ifs <;> rfl

theorem mapStateEntry.merge_Listener_allow (e entry : mapStateEntry)
    (he : e.IsDeny = false) (hent : entry.IsDeny = false) :
    (e.merge entry).Listener =
      if entry.IsRedirectEntry ∧ (¬ e.IsRedirectEntry ∨ entry.priority < e.priority ∨
          (entry.priority = e.priority ∧ entry.ProxyPort < e.ProxyPort)) then
        entry.Listener
      else e.Listener := by
  unfold mapStateEntry.merge
  rw [if_neg (by rw [he, hent]; simp)]
  dsimp only
  rw [if_neg (by rw [he]; simp)]
  split_ifs <;> rfl

theorem mapStateEntry.merge_priority_allow (e entry : mapStateEntry)
    (he : e.IsDeny = false) (hent : entry.IsDeny = false) :
    (e.merge entry).priority =
      if entry.IsRedirectEntry ∧ (¬ e.IsRedirectEntry ∨ entry.priority < e.priority ∨
          (entry.priority = e.priority ∧ entry.ProxyPort < e.ProxyPort)) then
        entry.priority
      else e.priority := by
  unfold mapStateEntry.merge
  rw [if_neg (by rw [he, hent]; simp)]
  dsimp only
  rw [if_neg (by rw [he]; simp)]
  split_ifs <;> rfl

/-- Merging two deny entries only unions the owners and merges the rule
labels; every other field of the existing entry is kept. -/
theorem mapStateEntry.merge_deny_eq (e entry : mapStateEntry)
    (he : e.IsDeny = true) (hent : entry.IsDeny = true) :
    e.merge entry =
      { e with owners := e.owners ∪ entry.owners,
               derivedFromRules :=
                 if entry.derivedFromRules ≠ [] then
                   mergeSortedRules e.derivedFromRules entry.derivedFromRules
                 else e.derivedFromRules } := by
  unfold mapStateEntry.merge
  rw [if_neg (by rw [he, hent]; simp)]
  dsimp only
  rw [if_pos he]

/-! ### The C6 scenario (S3): proxy-port tie break -/

/-- Key of scenario S3. -/
def c6Key : Key :=
  { trafficDirection := 0, identity := 10, nexthdr := 6, destPort := 8080, portPrefixLen := 16 }

/-- Allow with `proxy_port = 8080, priority = 0, listener = "L1"`. -/
def c6Entry1 : mapStateEntry := newMapStateEntry (some 1) [] 8080 "L1" 0 false .DefaultAuthType 0

/-- Allow with `proxy_port = 9090, priority = 0, listener = "L2"`. -/
def c6Entry2 : mapStateEntry := newMapStateEntry (some 2) [] 9090 "L2" 0 false .DefaultAuthType 0

/-- Scenario S3 run through the engine: insert the 8080 redirect, then
merge the 9090 redirect at the same key. -/
def c6State : mapState :=
  ((newMapState.insertWithChanges c6Key c6Entry1 false ChangeState.empty).1.insertWithChanges
    c6Key c6Entry2 false ChangeState.empty).1

/-- C6: when two allow entries merge at one key, the proxy redirect is
chosen by priority: a redirect always beats a non-redirect, a lower
priority value wins, an equal priority is broken by the lower proxy port,
and `newMapStateEntry` defaults a redirect's priority to its own proxy
port.  In particular, merging the allow `(8080, prio 0, "L1")` with the
allow `(9090, prio 0, "L2")` keeps `proxy_port = 8080` and
`listener = "L1"`. -/
theorem c6_proxy_priority_merge :
    (∀ e entry : mapStateEntry, e.IsDeny = false → entry.IsDeny = false →
      ((entry.IsRedirectEntry = true → e.IsRedirectEntry = false →
        (e.merge entry).ProxyPort = entry.ProxyPort ∧
        (e.merge entry).Listener = entry.Listener) ∧
      (entry.IsRedirectEntry = false →
        (e.merge entry).ProxyPort = e.ProxyPort ∧
        (e.merge entry).Listener = e.Listener) ∧
      (entry.IsRedirectEntry = true → e.IsRedirectEntry = true →
        entry.priority < e.priority →
        (e.merge entry).ProxyPort = entry.ProxyPort ∧
        (e.merge entry).Listener = entry.Listener) ∧
      (entry.IsRedirectEntry = true → e.IsRedirectEntry = true →
        e.priority < entry.priority →
        (e.merge entry).ProxyPort = e.ProxyPort ∧
        (e.merge entry).Listener = e.Listener) ∧
      (entry.IsRedirectEntry = true → e.IsRedirectEntry = true →
        entry.priority = e.priority → entry.ProxyPort < e.ProxyPort →
        (e.merge entry).ProxyPort = entry.ProxyPort ∧
        (e.merge entry).Listener = entry.Listener) ∧
      (entry.IsRedirectEntry = true → e.IsRedirectEntry = true →
        entry.priority = e.priority → ¬ entry.ProxyPort < e.ProxyPort →
        (e.merge entry).ProxyPort = e.ProxyPort ∧
        (e.merge entry).Listener = e.Listener))) ∧
    (∀ (cs : Owner) (derivedFrom : RuleLabels) (proxyPort : Nat) (listener : String)
      (deny : Bool) (hasAuth : HasAuthType) (authType : Nat), proxyPort ≠ 0 →
      (newMapStateEntry cs derivedFrom proxyPort listener 0 deny hasAuth authType).priority =
        proxyPort) ∧
    (c6State.Lookup c6Key).map (fun v => (v.ProxyPort, v.Listener)) = some (8080, "L1") := by
  refine ⟨?_, ?_, by decide⟩
  · intro e entry he hent
    have hpp := mapStateEntry.merge_ProxyPort_allow e entry he hent
    have hpl := mapStateEntry.merge_Listener_allow e entry he hent
    refine ⟨?_, ?_, ?_, ?_, ?_, ?_⟩
    · intro hr hnr
      rw [hpp, hpl, if_pos ⟨hr, Or.inl (by rw [hnr]; simp)⟩, if_pos ⟨hr, Or.inl (by rw [hnr]; simp)⟩]
      exact ⟨rfl, rfl⟩
    · intro hr
      rw [hpp, hpl, if_neg (by rw [hr]; simp), if_neg (by rw [hr]; simp)]
      exact ⟨rfl, rfl⟩
    · intro hr her hlt
      rw [hpp, hpl, if_pos ⟨hr, Or.inr (Or.inl hlt)⟩, if_pos ⟨hr, Or.inr (Or.inl hlt)⟩]
      exact ⟨rfl, rfl⟩
    · intro hr her hlt
      have hcond : ¬ ((entry.IsRedirectEntry = true) ∧
          (¬ (e.IsRedirectEntry = true) ∨ entry.priority < e.priority ∨
            (entry.priority = e.priority ∧ entry.ProxyPort < e.ProxyPort))) := by
        rintro ⟨-, hor⟩
        rcases hor with hne | hlt2 | ⟨heq, -⟩
        · exact hne her
        · omega
        · omega
      rw [hpp, hpl, if_neg hcond, if_neg hcond]
      exact ⟨rfl, rfl⟩
    · intro hr her heq hlt
      rw [hpp, hpl, if_pos ⟨hr, Or.inr (Or.inr ⟨heq, hlt⟩)⟩,
        if_pos ⟨hr, Or.inr (Or.inr ⟨heq, hlt⟩)⟩]
      exact ⟨rfl, rfl⟩
    · intro hr her heq hge
      have hcond : ¬ ((entry.IsRedirectEntry = true) ∧
          (¬ (e.IsRedirectEntry = true) ∨ entry.priority < e.priority ∨
            (entry.priority = e.priority ∧ entry.ProxyPort < e.ProxyPort))) := by
        rintro ⟨-, hor⟩
        rcases hor with hne | hlt2 | ⟨-, hlt3⟩
        · exact hne her
        · omega
        · exact hge hlt3
      rw [hpp, hpl, if_neg hcond, if_neg hcond]
      exact ⟨rfl, rfl⟩
  · intro cs derivedFrom proxyPort listener deny hasAuth authType hpp
    unfold newMapStateEntry
    dsimp only
    rw [if_neg hpp, if_pos rfl]

/-! ### Ordering of the subset walk (claim C7) -/

theorem sorted_map_of_const {α : Type} (g : α → Nat) (m : Nat) :
    ∀ (l : List α), (∀ x ∈ l, g x = m) → List.Sorted (· ≤ ·) (l.map g) := by
  intro l hl
  induction l with
  | nil => simp
  | cons hd t ih =>
    rw [List.map_cons, List.sorted_cons]
    refine ⟨?_, ih (fun x hx => hl x (List.mem_cons_of_mem _ hx))⟩
    intro b hb
    rcases List.mem_map.mp hb with ⟨y, hy, rfl⟩
    rw [hl hd (List.mem_cons_self _ _), hl y (List.mem_cons_of_mem _ hy)]

theorem sorted_flatMap_range {α : Type} (f : Nat → List α) (g : α → Nat)
    (hf : ∀ l x, x ∈ f l → g x = l) :
    ∀ n, List.Sorted (· ≤ ·) (((List.range n).flatMap f).map g) := by
  intro n
  induction n with
  | zero => simp
  | succ m ih =>
    rw [List.range_succ, List.flatMap_append, List.map_append]
    have happ : List.Sorted (· ≤ ·)
        ((((List.range m).flatMap f).map g) ++ ((List.flatMap [m] f).map g)) := by
      rw [show (List.Sorted (· ≤ ·)
          ((((List.range m).flatMap f).map g) ++ ((List.flatMap [m] f).map g))) =
          List.Pairwise (· ≤ ·)
          ((((List.range m).flatMap f).map g) ++ ((List.flatMap [m] f).map g)) from rfl,
        List.pairwise_append]
      refine ⟨ih, ?_, ?_⟩
      · have : ∀ x ∈ List.flatMap [m] f, g x = m := by
          intro x hx
          rw [List.mem_flatMap] at hx
          obtain ⟨b, hb, hxb⟩ := hx
          rw [List.mem_singleton] at hb
          rw [hb] at hxb
          exact hf m x hxb
        exact sorted_map_of_const g m _ this
      · intro x hx y hy
        rcases List.mem_map.mp hx with ⟨x₀, hx₀, rfl⟩
        rcases List.mem_map.mp hy with ⟨y₀, hy₀, rfl⟩
        rw [List.mem_flatMap] at hx₀ hy₀
        obtain ⟨bx, hbx, hx₀'⟩ := hx₀
        obtain ⟨by₀, hby, hy₀'⟩ := hy₀
        rw [List.mem_range] at hbx
        rw [List.mem_singleton] at hby
        subst hby
        rw [hf bx x₀ hx₀', hf by₀ y₀ hy₀']
        omega
    simpa using happ

/-- The subset iterator yields keys in shortest-prefix-first order. -/
theorem mapState.SubsetKeysWithSameID_sorted (ms : mapState) (key : Key) :
    List.Sorted (· ≤ ·)
      ((ms.SubsetKeysWithSameID key).map (fun kv => kv.1.portPrefixLen)) := by
  unfold mapState.SubsetKeysWithSameID mapState.leavesAsc
  rw [List.flatMap_assoc]
  refine sorted_flatMap_range _ _ ?_ 17
  intro l kv hkv
  rw [List.mem_flatMap] at hkv
  obtain ⟨ps, hps, hmem⟩ := hkv
  rw [List.mem_filter] at hps
  have hlen : ps.1.portPrefixLen = l := by
    have := hps.2
    simp only [decide_eq_true_eq] at this
    exact this.1
  split_ifs at hmem
  · obtain ⟨k', v'⟩ := kv
    obtain ⟨rfl, -⟩ := mapState.mem_yieldKey.mp hmem
    simpa using hlen
  · simp at hmem

/-! ### The C7 scenario (S2): auth-type propagation -/

/-- A1's key: ingress, identity 10, TCP port 80. -/
def c7Key1 : Key :=
  { trafficDirection := 0, identity := 10, nexthdr := 6, destPort := 80, portPrefixLen := 16 }

/-- A2's key: ingress, identity 10, TCP wildcard port. -/
def c7Key2 : Key :=
  { trafficDirection := 0, identity := 10, nexthdr := 6, destPort := 0, portPrefixLen := 0 }

/-- A1: allow with defaulted auth type. -/
def c7Entry1 : mapStateEntry := newMapStateEntry (some 1) [] 0 "" 0 false .DefaultAuthType 0

/-- A2: allow with explicit auth type MTLS (encoded as 2). -/
def c7Entry2 : mapStateEntry := newMapStateEntry (some 2) [] 0 "" 0 false .ExplicitAuthType 2

/-- Scenario S2 with the auth feature active: insert A1 then A2. -/
def c7State : mapState :=
  ((newMapState.insertWithChanges c7Key1 c7Entry1 true ChangeState.empty).1.insertWithChanges
    c7Key2 c7Entry2 true ChangeState.empty).1

/-- C7: explicit auth propagation.  When an allow entry with an explicit
auth type is inserted with the auth feature active, the walk over narrower
same-identity keys proceeds shortest-prefix-first (the subset iterator's
key prefix lengths are sorted ascending), it stops at the first subset
entry that is deny or has explicit auth (`takeWhile`), and every walked
entry — all of which have defaulted auth — has its auth type overwritten in
place to the new entry's auth type while the rest of the entry, in
particular its defaulted `has_auth_type`, is kept.  In particular, after
inserting `A1 = (ingress, id 10, tcp, 80/16, allow, default-auth)` and
`A2 = (ingress, id 10, tcp, 0/0, allow, explicit-auth MTLS)`, A1's auth
type is MTLS while its `has_auth_type` is still default. -/
theorem c7_auth_propagation :
    (∀ (ms : mapState) (key : Key), List.Sorted (· ≤ ·)
      ((ms.SubsetKeysWithSameID key).map (fun kv => kv.1.portPrefixLen))) ∧
    (∀ (ms : mapState) (newKey : Key) (newEntry : mapStateEntry) (changes : ChangeState),
      newEntry.HasAuthType = .ExplicitAuthType →
      ∀ kv ∈ (ms.SubsetKeysWithSameID newKey).takeWhile
        (fun kv => ¬ (kv.2.IsDeny = true ∨ kv.2.HasAuthType = .ExplicitAuthType)),
      kv.2.HasAuthType = .DefaultAuthType ∧
      alookup (ms.authPreferredInsert newKey newEntry changes).1.entries kv.1 =
        some { kv.2 with AuthType := newEntry.AuthType }) ∧
    (c7State.Lookup c7Key1).map (fun v => (v.AuthType, v.HasAuthType)) =
      some (2, .DefaultAuthType) := by
  refine ⟨mapState.SubsetKeysWithSameID_sorted, ?_, by decide⟩
  intro ms newKey newEntry changes hexp kv hkv
  have hpred := List.mem_takeWhile_imp hkv
  simp only [decide_eq_true_eq] at hpred
  push_neg at hpred
  have hdefault : kv.2.HasAuthType = .DefaultAuthType := by
    cases hh : kv.2.HasAuthType with
    | DefaultAuthType => rfl
    | ExplicitAuthType => exact absurd hh hpred.2
  refine ⟨hdefault, ?_⟩
  have hmem := (List.takeWhile_sublist _).mem hkv
  obtain ⟨k', v'⟩ := kv
  obtain ⟨hlk, -, -, hnpp⟩ := mapState.mem_SubsetKeysWithSameID hmem
  have hne : k' ≠ newKey := fun hh => hnpp (Key.portProtoIsEqual_of_eq hh)
  unfold mapState.authPreferredInsert
  rw [if_neg (by rw [hexp]; simp)]
  dsimp only
  rw [mapState.addKeyWithChanges_lookup_ne _ _ _ _ hne]
  refine fold_override_lookup newEntry _ ms changes k' v' ?_ hkv
  intro v₁ v₂ h1 h2
  have s1 := (mapState.mem_SubsetKeysWithSameID ((List.takeWhile_sublist _).mem h1)).1
  have s2 := (mapState.mem_SubsetKeysWithSameID ((List.takeWhile_sublist _).mem h2)).1
  rw [s1] at s2
  exact Option.some.inj s2

/-! ### Reconciler lemmas (claim C8) -/

theorem alookup_filter_keys {α : Type} (p : Key → Bool) (l : List (Key × α)) (k : Key) :
    alookup (l.filter (fun kv => p kv.1)) k = if p k then alookup l k else none := by
  induction l with
  | nil => simp
  | cons hd t ih =>
    obtain ⟨k₀, v₀⟩ := hd
    by_cases hp : p k₀
    · rw [show List.filter (fun kv => p kv.1) ((k₀, v₀) :: t) =
          (k₀, v₀) :: List.filter (fun kv => p kv.1) t by simp [List.filter_cons, hp]]
      by_cases hk : k₀ = k
      · subst hk
        rw [alookup_cons, if_pos rfl, if_pos hp, alookup_cons, if_pos rfl]
      · rw [alookup_cons, if_neg hk, ih, alookup_cons, if_neg hk]
    · rw [show List.filter (fun kv => p kv.1) ((k₀, v₀) :: t) =
          List.filter (fun kv => p kv.1) t by simp [List.filter_cons, hp]]
      by_cases hk : k₀ = k
      · subst hk
        rw [ih, if_neg hp, if_neg hp]
      · rw [ih, alookup_cons, if_neg hk]

theorem sync_fold_lookup (d : MapStateMap) :
    ∀ (acc : MapStateMap × List PolicyOp), NodupKeys d → ∀ k,
    alookup (d.foldl policySyncStep acc).1 k =
      match alookup d k with
      | some e =>
        match alookup acc.1 k with
        | some old => if old.Equal e then some old else some e
        | none => some e
      | none => alookup acc.1 k := by
  induction d with
  | nil => intro acc _ k; rfl
  | cons hd t ih =>
    intro acc hnd k
    obtain ⟨k₀, e₀⟩ := hd
    simp only [NodupKeys, List.map_cons, List.nodup_cons] at hnd
    rw [List.foldl_cons, ih (policySyncStep acc (k₀, e₀)) hnd.2 k, alookup_cons]
    by_cases hk : k₀ = k
    · subst hk
      rw [if_pos rfl]
      have ht : alookup t k₀ = none := alookup_eq_none_of_not_mem_keys hnd.1
      rw [ht]
      dsimp only
      unfold policySyncStep
      cases hacc : alookup acc.1 k₀ with
      | some old =>
        dsimp only
        split_ifs with he
        · exact hacc
        · dsimp only
          rw [alookup_aset_self]
      | none =>
        dsimp only
        rw [alookup_aset_self]
    · rw [if_neg hk]
      have hstep : alookup (policySyncStep acc (k₀, e₀)).1 k = alookup acc.1 k := by
        unfold policySyncStep
        cases hacc : alookup acc.1 k₀ with
        | some old =>
          dsimp only
          split_ifs
          · rfl
          · exact alookup_aset_ne _ hk _
        | none => exact alookup_aset_ne _ hk _
      rw [hstep]

theorem sync_fold_ops_write (d : MapStateMap) :
    ∀ (acc : MapStateMap × List PolicyOp), (∀ op ∈ acc.2, op.isWrite = true) →
    ∀ op ∈ (d.foldl policySyncStep acc).2, op.isWrite = true := by
  induction d with
  | nil => intro acc h op hop; exact h op hop
  | cons hd t ih =>
    intro acc h op hop
    rw [List.foldl_cons] at hop
    refine ih (policySyncStep acc hd) ?_ op hop
    intro o ho
    unfold policySyncStep at ho
    split at ho
    · split_ifs at ho
      · exact h o ho
      · rcases List.mem_append.mp ho with hm | hm
        · exact h o hm
        · rw [List.mem_singleton] at hm
          subst hm
          rfl
    · rcases List.mem_append.mp ho with hm | hm
      · exact h o hm
      · rw [List.mem_singleton] at hm
        subst hm
        rfl

theorem sync_fold_ops_mono (d : MapStateMap) :
    ∀ (acc : MapStateMap × List PolicyOp) (op : PolicyOp), op ∈ acc.2 →
    op ∈ (d.foldl policySyncStep acc).2 := by
  induction d with
  | nil => intro acc op h; exact h
  | cons hd t ih =>
    intro acc op h
    rw [List.foldl_cons]
    refine ih (policySyncStep acc hd) op ?_
    unfold policySyncStep
    cases alookup acc.1 hd.1 with
    | some old =>
      dsimp only
      split_ifs
      · exact h
      · exact List.mem_append.mpr (Or.inl h)
    | none => exact List.mem_append.mpr (Or.inl h)

theorem sync_fold_write_present (d : MapStateMap) :
    ∀ (acc : MapStateMap × List PolicyOp) (k : Key) (e : MapStateEntry),
    NodupKeys d → (k, e) ∈ d →
    (∀ old, alookup acc.1 k = some old → ¬ old.Equal e) →
    PolicyOp.write k e ∈ (d.foldl policySyncStep acc).2 := by
  induction d with
  | nil => intro acc k e _ hm _; simp at hm
  | cons hd t ih =>
    intro acc k e hnd hm hdiff
    obtain ⟨k₀, e₀⟩ := hd
    simp only [NodupKeys, List.map_cons, List.nodup_cons] at hnd
    rw [List.foldl_cons]
    rcases List.mem_cons.mp hm with heq | hmem
    · cases heq
      refine sync_fold_ops_mono t (policySyncStep acc (k, e)) _ ?_
      unfold policySyncStep
      cases hacc : alookup acc.1 k with
      | some old =>
        dsimp only
        rw [if_neg (hdiff old hacc)]
        exact List.mem_append.mpr (Or.inr (List.mem_singleton.mpr rfl))
      | none => exact List.mem_append.mpr (Or.inr (List.mem_singleton.mpr rfl))
    · have hk : k ≠ k₀ := by
        rintro rfl
        exact hnd.1 (List.mem_map.mpr ⟨(k, e), hmem, rfl⟩)
      refine ih (policySyncStep acc (k₀, e₀)) k e hnd.2 hmem ?_
      intro old hold
      refine hdiff old ?_
      unfold policySyncStep at hold
      cases hacc : alookup acc.1 k₀ with
      | some o₀ =>
        rw [hacc] at hold
        dsimp only at hold
        split_ifs at hold
        · exact hold
        · rw [alookup_aset_ne _ (fun hh => hk hh.symm)] at hold
          exact hold
      | none =>
        rw [hacc] at hold
        dsimp only at hold
        rw [alookup_aset_ne _ (fun hh => hk hh.symm)] at hold
        exact hold

theorem MapStateEntry.Equal_refl (e : MapStateEntry) : e.Equal e := ⟨rfl, rfl, rfl⟩

/-! ### The C8 counterexample and amended reconciler theorem -/

/-- A key whose desired and realized entries are datapath-equal but not
identical. -/
def c8Key : Key :=
  { trafficDirection := 0, identity := 1, nexthdr := 6, destPort := 80, portPrefixLen := 16 }

/-- Desired entry: redirect to 4000 via listener "L1". -/
def c8DesiredEntry : MapStateEntry :=
  { Listener := "L1", ProxyPort := 4000, IsDeny := false,
    HasAuthType := .DefaultAuthType, AuthType := 0 }

/-- Realized entry: same datapath fields but no listener name (as produced
by a BPF map dump). -/
def c8RealizedEntry : MapStateEntry :=
  { Listener := "", ProxyPort := 4000, IsDeny := false,
    HasAuthType := .DefaultAuthType, AuthType := 0 }

/-- C8 counterexample: when the realized value is datapath-`Equal` to the
desired one but structurally different (here the listener name differs),
`syncPolicyMapWith` issues no operation and leaves the realized map
different from the desired map, so "afterwards the realized map equals the
desired map" is false as stated. -/
theorem c8_counterexample :
    (syncPolicyMapWith [(c8Key, c8DesiredEntry)] [(c8Key, c8RealizedEntry)]).1 ≠
      [(c8Key, c8DesiredEntry)] ∧
    (syncPolicyMapWith [(c8Key, c8DesiredEntry)] [(c8Key, c8RealizedEntry)]).2 = [] := by
  decide

/-- C8 (amended): one `syncPolicyMapWith` call issues all external writes —
one for every desired key whose realized value is absent or
datapath-different — strictly before any external delete of realized-only
keys, and afterwards the realized map agrees with the desired map up to
datapath equality (`Equal` on `IsDeny`, `ProxyPort`, `AuthType`): same key
set, with every surviving entry datapath-equal to the desired one
(entries whose realized value was already datapath-equal are not
rewritten, so exact structural equality does not hold in general). -/
theorem c8_amended_sync_convergence (desired realized : MapStateMap)
    (hd : NodupKeys desired) :
    (∃ w r, (syncPolicyMapWith desired realized).2 = w ++ r ∧
      (∀ op ∈ w, op.isWrite = true) ∧ (∀ op ∈ r, op.isWrite = false)) ∧
    (∀ k e, alookup desired k = some e →
      (∀ old, alookup realized k = some old → ¬ old.Equal e) →
      PolicyOp.write k e ∈ (syncPolicyMapWith desired realized).2) ∧
    (∀ k, (alookup realized k).isSome → alookup desired k = none →
      PolicyOp.remove k ∈ (syncPolicyMapWith desired realized).2) ∧
    (∀ k e, alookup desired k = some e →
      ∃ e', alookup (syncPolicyMapWith desired realized).1 k = some e' ∧ e'.Equal e) ∧
    (∀ k, alookup desired k = none →
      alookup (syncPolicyMapWith desired realized).1 k = none) := by
  have hstepchar := sync_fold_lookup desired (realized, []) hd
  refine ⟨?_, ?_, ?_, ?_, ?_⟩
  · refine ⟨(desired.foldl policySyncStep (realized, [])).2,
      ((desired.foldl policySyncStep (realized, [])).1.filter
        (fun kv : Key × MapStateEntry => (alookup desired kv.1).isNone)).map
        (fun kv : Key × MapStateEntry => PolicyOp.remove kv.1), rfl, ?_, ?_⟩
    · exact sync_fold_ops_write desired (realized, []) (by intro op hop; simp at hop)
    · intro op hop
      rcases List.mem_map.mp hop with ⟨kv, -, rfl⟩
      rfl
  · intro k e hdes hdiff
    refine List.mem_append.mpr (Or.inl ?_)
    exact sync_fold_write_present desired (realized, []) k e hd
      (mem_of_alookup_eq_some hdes) hdiff
  · intro k hsome hnone
    refine List.mem_append.mpr (Or.inr ?_)
    have hlk : alookup (desired.foldl policySyncStep (realized, [])).1 k =
        alookup realized k := by
      rw [hstepchar k, hnone]
    obtain ⟨v, hv⟩ := Option.isSome_iff_exists.mp hsome
    have hmem : (k, v) ∈ (desired.foldl policySyncStep (realized, [])).1 :=
      mem_of_alookup_eq_some (by rw [hlk]; exact hv)
    refine List.mem_map.mpr ⟨(k, v), ?_, rfl⟩
    rw [List.mem_filter]
    exact ⟨hmem, by simp [hnone]⟩
  · intro k e hdes
    show ∃ e', alookup ((desired.foldl policySyncStep (realized, [])).1.filter
      (fun kv => (alookup desired kv.1).isSome)) k = some e' ∧ e'.Equal e
    rw [alookup_filter_keys (fun q => (alookup desired q).isSome) _ k,
      if_pos (by rw [hdes]; rfl), hstepchar k, hdes]
    cases alookup realized k with
    | some old =>
      dsimp only
      split_ifs with he
      · exact ⟨old, rfl, he⟩
      · exact ⟨e, rfl, MapStateEntry.Equal_refl e⟩
    | none => exact ⟨e, rfl, MapStateEntry.Equal_refl e⟩
  · intro k hnone
    show alookup ((desired.foldl policySyncStep (realized, [])).1.filter
      (fun kv => (alookup desired kv.1).isSome)) k = none
    rw [alookup_filter_keys (fun q => (alookup desired q).isSome) _ k,
      if_neg (by rw [hnone]; simp)]

/-! ### Claim C9: invalid wildcard-port keys -/

/-- An invariant-violating key: wildcard port with a non-zero prefix
length. -/
def c9Key : Key :=
  { trafficDirection := 0, identity := 1, nexthdr := 6, destPort := 0, portPrefixLen := 8 }

/-- A plain allow entry. -/
def c9Entry : mapStateEntry := newMapStateEntry (some 1) [] 0 "" 0 false .DefaultAuthType 0

/-- C9 counterexample: inserting a key with `dest_port = 0` and
`port_prefix_len > 0` is NOT skipped — `mapState.insert` logs the error and
upserts anyway, so the map state changes: the offending key is present
afterwards although the map was empty before. -/
theorem c9_counterexample :
    c9Key.destPort = 0 ∧ 0 < c9Key.portPrefixLen ∧
    newMapState.Lookup c9Key = none ∧
    (newMapState.insert c9Key c9Entry).Lookup c9Key = some c9Entry := by
  decide

/-- C9 (amended): for a key with `dest_port = 0` and `port_prefix_len > 0`
the mutation is only logged, not skipped: `insert` proceeds exactly as
`upsert` does, and the entry is stored under the offending key. -/
theorem c9_amended_insert_proceeds (ms : mapState) (k : Key) (v : mapStateEntry)
    (_hport : k.destPort = 0) (_hlen : 0 < k.portPrefixLen) :
    ms.insert k v = ms.upsert k v ∧ (ms.insert k v).Lookup k = some v :=
  ⟨rfl, mapState.lookup_upsert_self ms k v⟩

/-- C10: deny/deny merge frame.  Merging two deny entries at the same key
changes none of the datapath-visible or redirect fields of the existing
entry — `is_deny`, `proxy_port`, `listener`, `priority`, `has_auth_type`
and `auth_type` are all kept — and only the owners set (set union) and
`derived_from_rules` (sorted merge, skipped for an empty incoming list) are
updated. -/
theorem c10_deny_merge_frame (e entry : mapStateEntry) (he : e.IsDeny = true)
    (hent : entry.IsDeny = true) :
    (e.merge entry).IsDeny = e.IsDeny ∧
    (e.merge entry).ProxyPort = e.ProxyPort ∧
    (e.merge entry).Listener = e.Listener ∧
    (e.merge entry).priority = e.priority ∧
    (e.merge entry).HasAuthType = e.HasAuthType ∧
    (e.merge entry).AuthType = e.AuthType ∧
    (e.merge entry).owners = e.owners ∪ entry.owners ∧
    (e.merge entry).derivedFromRules =
      (if entry.derivedFromRules ≠ [] then
        mergeSortedRules e.derivedFromRules entry.derivedFromRules
      else e.derivedFromRules) := by
  rw [mapStateEntry.merge_deny_eq e entry he hent]
  exact ⟨rfl, rfl, rfl, rfl, rfl, rfl, rfl, rfl⟩

/-! ### Witnesses -/

/-- Wildcard-identity wildcard-port deny key used by the C1 witness. -/
def c1WitnessKey : Key :=
  { trafficDirection := 0, identity := 0, nexthdr := 6, destPort := 0, portPrefixLen := 0 }

/-- Deny entry used by the C1 witness. -/
def c1WitnessEntry : mapStateEntry := newMapStateEntry (some 1) [] 0 "" 0 true .DefaultAuthType 0

theorem c1_witness :
    (newMapState.Invariant ∧ newMapState.DenyDominant ∧ c1WitnessKey.WF ∧
      c1WitnessEntry.IsDeny = true) ∧
    (∀ (a : Key) (v : mapStateEntry),
      alookup (newMapState.insertWithChanges c1WitnessKey c1WitnessEntry false
        ChangeState.empty).1.entries a = some v →
      c1WitnessKey.broaderOrEqualPP a →
      (a.identity = c1WitnessKey.identity ∨ c1WitnessKey.identity = 0) →
      v.IsDeny = true) := by
  have hdom : newMapState.DenyDominant := by
    intro akv hak
    simp [newMapState] at hak
  exact ⟨⟨mapState.invariant_newMapState, hdom, by decide, by decide⟩,
    fun a v h1 h2 h3 => c1_deny_insert_dominance mapState.invariant_newMapState hdom
      (by decide) (by decide) false ChangeState.empty h1 h2 h3⟩

/-- Broad deny key already present in the C2 witness state. -/
def c2DenyKey : Key :=
  { trafficDirection := 0, identity := 0, nexthdr := 6, destPort := 0, portPrefixLen := 0 }

/-- The deny entry stored at `c2DenyKey`. -/
def c2DenyEntry : mapStateEntry := newMapStateEntry (some 1) [] 0 "" 0 true .DefaultAuthType 0

/-- Narrower key whose insertion the shadow check aborts. -/
def c2TargetKey : Key :=
  { trafficDirection := 0, identity := 5, nexthdr := 6, destPort := 80, portPrefixLen := 16 }

/-- Allow entry whose insertion the shadow check aborts. -/
def c2TargetEntry : mapStateEntry := newMapStateEntry (some 2) [] 0 "" 0 false .DefaultAuthType 0

/-- The C2 witness state: the empty map with the broad deny inserted. -/
def c2State : mapState :=
  (newMapState.insertWithChanges c2DenyKey c2DenyEntry false ChangeState.empty).1

theorem c2_state_invariant : c2State.Invariant :=
  mapState.insertWithChanges_invariant mapState.invariant_newMapState (by decide)
    c2DenyEntry false ChangeState.empty

theorem c2_witness :
    (c2State.Invariant ∧ alookup c2State.entries c2DenyKey = some c2DenyEntry ∧
      c2DenyEntry.IsDeny = true ∧ c2DenyKey.broaderOrEqualPP c2TargetKey ∧
      (c2DenyKey.identity = c2TargetKey.identity ∨ c2DenyKey.identity = 0) ∧
      ¬ (c2TargetEntry.IsDeny = true ∧ c2DenyKey = c2TargetKey)) ∧
    c2State.insertWithChanges c2TargetKey c2TargetEntry false ChangeState.empty =
      (c2State, ChangeState.empty) :=
  ⟨⟨c2_state_invariant, by decide, by decide, by decide, by decide, by decide⟩,
    @c2_deny_shadow_abort c2State c2_state_invariant c2DenyKey c2TargetKey c2DenyEntry
      c2TargetEntry (by decide) (by decide) (by decide) (by decide) (by decide)
      false ChangeState.empty⟩

theorem c3_witness :
    (newMapState.Invariant ∧
      (∀ op ∈ [EngineOp.insertOp c4Key1 c4Entry false,
        EngineOp.insertOp c4Key2 c4Entry false, EngineOp.deleteOp c4Key1 none],
        op.keyWF)) ∧
    (∀ q, alookup ((applyBatch (newMapState, ChangeState.empty)
        [EngineOp.insertOp c4Key1 c4Entry false, EngineOp.insertOp c4Key2 c4Entry false,
          EngineOp.deleteOp c4Key1 none]).1.revertChanges
        (applyBatch (newMapState, ChangeState.empty)
        [EngineOp.insertOp c4Key1 c4Entry false, EngineOp.insertOp c4Key2 c4Entry false,
          EngineOp.deleteOp c4Key1 none]).2).entries q =
      alookup newMapState.entries q) :=
  ⟨⟨mapState.invariant_newMapState, by decide⟩,
    c3_revert_is_inverse mapState.invariant_newMapState _ (by decide)⟩

theorem c5_witness :
    (newMapState.Invariant ∧
      (∀ op ∈ [RawOp.upsertOp c4Key1 c4Entry, RawOp.upsertOp c4Key2 c4Entry,
        RawOp.removeOp c4Key1], op.keyWF)) ∧
    (applyRawOps newMapState [RawOp.upsertOp c4Key1 c4Entry,
      RawOp.upsertOp c4Key2 c4Entry, RawOp.removeOp c4Key1]).Invariant :=
  ⟨⟨mapState.invariant_newMapState, by decide⟩,
    c5_trie_map_consistency mapState.invariant_newMapState _ (by decide)⟩

theorem c6_witness :
    (c6Entry1.IsDeny = false ∧ c6Entry2.IsDeny = false ∧ c6Entry2.IsRedirectEntry = true ∧
      c6Entry1.IsRedirectEntry = true ∧ c6Entry1.priority < c6Entry2.priority) ∧
    ((c6Entry1.merge c6Entry2).ProxyPort = c6Entry1.ProxyPort ∧
      (c6Entry1.merge c6Entry2).Listener = c6Entry1.Listener) :=
  ⟨⟨by decide, by decide, by decide, by decide, by decide⟩,
    (c6_proxy_priority_merge.1 c6Entry1 c6Entry2 (by decide) (by decide)).2.2.2.1
      (by decide) (by decide) (by decide)⟩

/-- The C7 witness state: A1 inserted with the auth feature active. -/
def c7PreState : mapState :=
  (newMapState.insertWithChanges c7Key1 c7Entry1 true ChangeState.empty).1

theorem c7_witness :
    (c7Entry2.HasAuthType = .ExplicitAuthType) ∧
    (∀ kv ∈ (c7PreState.SubsetKeysWithSameID c7Key2).takeWhile
        (fun kv => ¬ (kv.2.IsDeny = true ∨ kv.2.HasAuthType = .ExplicitAuthType)),
      kv.2.HasAuthType = .DefaultAuthType ∧
      alookup (c7PreState.authPreferredInsert c7Key2 c7Entry2 ChangeState.empty).1.entries
        kv.1 = some { kv.2 with AuthType := c7Entry2.AuthType }) :=
  ⟨by decide,
    c7_auth_propagation.2.1 c7PreState c7Key2 c7Entry2 ChangeState.empty (by decide)⟩

theorem c8_witness :
    NodupKeys [(c8Key, c8DesiredEntry)] ∧
    ((∃ w r, (syncPolicyMapWith [(c8Key, c8DesiredEntry)] [(c8Key, c8RealizedEntry)]).2 =
        w ++ r ∧ (∀ op ∈ w, op.isWrite = true) ∧ (∀ op ∈ r, op.isWrite = false)) ∧
      (∀ k e, alookup [(c8Key, c8DesiredEntry)] k = some e →
        (∀ old, alookup [(c8Key, c8RealizedEntry)] k = some old → ¬ old.Equal e) →
        PolicyOp.write k e ∈
          (syncPolicyMapWith [(c8Key, c8DesiredEntry)] [(c8Key, c8RealizedEntry)]).2) ∧
      (∀ k, (alookup [(c8Key, c8RealizedEntry)] k).isSome →
        alookup [(c8Key, c8DesiredEntry)] k = none →
        PolicyOp.remove k ∈
          (syncPolicyMapWith [(c8Key, c8DesiredEntry)] [(c8Key, c8RealizedEntry)]).2) ∧
      (∀ k e, alookup [(c8Key, c8DesiredEntry)] k = some e →
        ∃ e', alookup
          (syncPolicyMapWith [(c8Key, c8DesiredEntry)] [(c8Key, c8RealizedEntry)]).1 k =
          some e' ∧ e'.Equal e) ∧
      (∀ k, alookup [(c8Key, c8DesiredEntry)] k = none →
        alookup
          (syncPolicyMapWith [(c8Key, c8DesiredEntry)] [(c8Key, c8RealizedEntry)]).1 k =
          none)) :=
  ⟨by simp [NodupKeys],
    c8_amended_sync_convergence [(c8Key, c8DesiredEntry)] [(c8Key, c8RealizedEntry)]
      (by simp [NodupKeys])⟩

theorem c9_witness :
    (c9Key.destPort = 0 ∧ 0 < c9Key.portPrefixLen) ∧
    (newMapState.insert c9Key c9Entry = newMapState.upsert c9Key c9Entry ∧
      (newMapState.insert c9Key c9Entry).Lookup c9Key = some c9Entry) :=
  ⟨⟨by decide, by decide⟩,
    c9_amended_insert_proceeds newMapState c9Key c9Entry (by decide) (by decide)⟩

/-- Deny entries used by the C10 witness. -/
def c10Entry1 : mapStateEntry := newMapStateEntry (some 1) [3] 0 "" 0 true .DefaultAuthType 0

def c10Entry2 : mapStateEntry := newMapStateEntry (some 2) [5] 0 "" 0 true .DefaultAuthType 0

theorem c10_witness :
    (c10Entry1.IsDeny = true ∧ c10Entry2.IsDeny = true) ∧
    ((c10Entry1.merge c10Entry2).IsDeny = c10Entry1.IsDeny ∧
      (c10Entry1.merge c10Entry2).ProxyPort = c10Entry1.ProxyPort ∧
      (c10Entry1.merge c10Entry2).Listener = c10Entry1.Listener ∧
      (c10Entry1.merge c10Entry2).priority = c10Entry1.priority ∧
      (c10Entry1.merge c10Entry2).HasAuthType = c10Entry1.HasAuthType ∧
      (c10Entry1.merge c10Entry2).AuthType = c10Entry1.AuthType ∧
      (c10Entry1.merge c10Entry2).owners = c10Entry1.owners ∪ c10Entry2.owners ∧
      (c10Entry1.merge c10Entry2).derivedFromRules =
        (if c10Entry2.derivedFromRules ≠ [] then
          mergeSortedRules c10Entry1.derivedFromRules c10Entry2.derivedFromRules
        else c10Entry1.derivedFromRules)) :=
  ⟨⟨by decide, by decide⟩, c10_deny_merge_frame c10Entry1 c10Entry2 (by decide) (by decide)⟩

end PolicyModel
